import Mathlib

/-!
Verification of the directed-graph library `graph.py`.

The library represents a graph as a Python `collections.defaultdict(set)`
mapping each source vertex to the set of its direct successors, and builds
all queries (connected components, topological order, cycle detection,
Kosaraju SCCs, condensation, Dijkstra-style shortest path) on top of a
depth-first spanning-forest construction.

Embedding choices, recorded once here:

* A Python dict is modelled as an association list `List (V × List V)` whose
  entry order is key-insertion order (CPython dicts preserve insertion
  order).  A Python *set* has unspecified iteration order; we model it as a
  duplicate-free list in element-insertion order, one concrete order the
  interpreter may produce.
* `defaultdict.__getitem__` (used by `neighbors`) *inserts* a fresh empty
  entry when the key is missing; `dictGet` below reproduces this mutation,
  and graph operations thread the mutated dict explicitly.
* CPython raises `RuntimeError: dictionary changed size during iteration`
  when a dict grows while one of its key views is being iterated.
  `spanning_forest` (with its default vertex sequence `self.G.keys()`) is
  the one place in the library where this can happen; `forest_keys_go`
  models the iterator's size check and reports the exception as
  `Except.error ()`.
* Python recursion/loops are modelled with an explicit fuel parameter so
  that every definition is structurally recursive and hence evaluable by
  the kernel.  The fuel bounds chosen at each call site strictly dominate
  the depth of the corresponding recursion (the DFS call depth is bounded
  by the number of vertices plus the total adjacency size), so the
  fuel-exhausted branches are dead code.
-/

namespace GraphPy

/-- Rooted tree with an ordered list of child subtrees, mirroring class
`Tree` of the source (`self.root`, `self.branches`). -/
inductive Tree (V : Type) where
  | node (root : V) (branches : List (Tree V))

variable {V : Type} [DecidableEq V]

/-- Postorder traversal of a list of trees: for each tree, all descendants
of the root (in child order) are emitted before the root itself, mirroring
`Tree.postorder`.  The fuel argument makes the recursion structural; it
bounds the nesting depth, and every call site supplies fuel larger than
the total node count of the forest. -/
def postorderL : Nat → List (Tree V) → List V
  | 0, _ => []
  | _fuel+1, [] => []
  | fuel+1, Tree.node r bs :: ts => postorderL fuel bs ++ [r] ++ postorderL fuel ts

/-- Adjacency dict of a graph: `collections.defaultdict(set)` keyed by
source vertex, in key-insertion order. -/
abbrev Adj (V : Type) := List (V × List V)

/-- Model of `defaultdict(set).__getitem__`: return the adjacency set of
`v`, inserting a new empty entry (at the end, as CPython does) when `v` is
not yet a key.  This is exactly `Graph.neighbors`. -/
def dictGet : Adj V → V → List V × Adj V
  | [], v => ([], [(v, [])])
  | (k, ns) :: rest, v =>
    if k = v then (ns, (k, ns) :: rest)
    else
      let r := dictGet rest v
      (r.1, (k, ns) :: r.2)

/-- Model of `self.G[u].add(v)` during construction: append `v` to `u`'s
adjacency set if absent, creating the entry for `u` if needed. -/
def addEdge : Adj V → V → V → Adj V
  | [], u, v => [(u, [v])]
  | (k, ns) :: rest, u, v =>
    if k = u then (k, if v ∈ ns then ns else ns ++ [v]) :: rest
    else (k, ns) :: addEdge rest u v

/-- Model of `Graph.__init__(edges)`. -/
def ofEdges (es : List (V × V)) : Adj V :=
  es.foldl (fun d e => addEdge d e.1 e.2) []

/-- Model of `Graph.vertices()`: the dict keys (vertices with at least one
recorded adjacency entry). -/
def vertices (d : Adj V) : List V := d.map Prod.fst

/-- Model of `Graph.neighbors(v)` = `self.G[v]`, including the defaultdict
insertion side effect on the receiver. -/
def neighbors (d : Adj V) (v : V) : List V × Adj V := dictGet d v

/-- Model of `Graph.edges()`: all `(u, v)` pairs grouped by source key. -/
def edges (d : Adj V) : List (V × V) :=
  (d.map (fun p => p.2.map (fun v => (p.1, v)))).flatten

/-- Model of `Graph.transpose()`. -/
def transpose (d : Adj V) : Adj V :=
  ofEdges ((edges d).map (fun e => (e.2, e.1)))

/-- Fuel bound for a depth-first traversal of `d` started on vertex
sequence `vs`: dominates the traversal's recursion depth, which is at most
`vs.length` plus the number of reachable vertices plus the total adjacency
size. -/
def dfsFuel (d : Adj V) (vs : List V) : Nat :=
  vs.length + d.length + 3 * (edges d).length + 8

mutual
/-- Model of `Graph.spanning_tree(v, visited)`: mark `v` visited, read (and
possibly auto-insert) its adjacency set, and explore the unvisited
neighbours as child subtrees, threading the mutated dict and the shared
visited set.  Returns `(tree, dict, visited)`. -/
def spanning_tree : Nat → Adj V → V → List V → Tree V × Adj V × List V
  | 0, d, v, vis => (Tree.node v [], d, v :: vis)
  | fuel+1, d, v, vis =>
    let nd := dictGet d v
    let r := spanning_forest_on fuel nd.2 nd.1 (v :: vis)
    (Tree.node v r.1, r.2.1, r.2.2)

/-- Model of `Graph.spanning_forest(vertices, visited)` when iterating an
explicit, already materialised vertex sequence (a neighbour set or the
`linearize` order): for each not-yet-visited vertex build a spanning tree
rooted there.  Returns `(trees, dict, visited)`. -/
def spanning_forest_on : Nat → Adj V → List V → List V → List (Tree V) × Adj V × List V
  | 0, d, _, vis => ([], d, vis)
  | _fuel+1, d, [], vis => ([], d, vis)
  | fuel+1, d, w :: ws, vis =>
    if w ∈ vis then spanning_forest_on fuel d ws vis
    else
      let r := spanning_tree fuel d w vis
      let r2 := spanning_forest_on fuel r.2.1 ws r.2.2
      (r.1 :: r2.1, r2.2.1, r2.2.2)
end

/-- Model of `Graph.spanning_forest()` with the default vertex sequence
`self.G.keys()`: CPython iterates the live key view and checks, at every
`next()` call, that the dict still has the size `n0` recorded when the
iterator was created; a traversal that auto-inserted a key makes the next
check raise `RuntimeError` (modelled as `Except.error ()`).  Keys fetched
before a failure are the snapshot prefix, since entries are only appended. -/
def forest_keys_go (tf : Nat) : List V → Nat → Adj V → List V → Except Unit (List (Tree V) × Adj V × List V)
  | [], n0, d, vis => if d.length = n0 then .ok ([], d, vis) else .error ()
  | w :: ws, n0, d, vis =>
    if d.length = n0 then
      if w ∈ vis then forest_keys_go tf ws n0 d vis
      else
        let r := spanning_tree tf d w vis
        match forest_keys_go tf ws n0 r.2.1 r.2.2 with
        | .ok p => .ok (r.1 :: p.1, p.2.1, p.2.2)
        | .error e => .error e
    else .error ()

/-- Model of a fully consumed `Graph.spanning_forest()` with default
arguments, as used by `ccs`, `linearize` and `acyclic`. -/
def spanning_forest (d : Adj V) : Except Unit (List (Tree V) × Adj V) :=
  match forest_keys_go (dfsFuel d (vertices d)) (vertices d) d.length d [] with
  | .ok p => .ok (p.1, p.2.1)
  | .error e => .error e

/-- Postorder fuel paired with a DFS fuel: twice the node bound plus slack. -/
def postFuel (d : Adj V) (vs : List V) : Nat := 2 * dfsFuel d vs + 2

/-- Model of `Graph.ccs()`. -/
def ccs (d : Adj V) : Except Unit (List (List V) × Adj V) :=
  match spanning_forest d with
  | .ok p => .ok (p.1.map (fun t => postorderL (postFuel d (vertices d)) [t]), p.2)
  | .error e => .error e

/-- Model of `Graph.linearize()`, fully consumed: reversed postorder of
each spanning tree, concatenated in forest order. -/
def linearize (d : Adj V) : Except Unit (List V × Adj V) :=
  match spanning_forest d with
  | .ok p =>
    .ok ((p.1.map (fun t => (postorderL (postFuel d (vertices d)) [t]).reverse)).flatten, p.2)
  | .error e => .error e

/-- Model of `Graph.reachable(u, v)`. -/
def reachable (d : Adj V) (u v : V) : Bool × Adj V :=
  let r := spanning_tree (dfsFuel d [u]) d u []
  (decide (v ∈ postorderL (postFuel d [u]) [r.1]), r.2.1)

/-- Model of `Graph.acyclic()`: index every vertex by its `linearize`
position and require every edge to go forward.  A `post[u]` lookup of a
vertex absent from the order would raise `KeyError`; this cannot happen
when `linearize` succeeds, but the model checks it faithfully. -/
def acyclic (d : Adj V) : Except Unit (Bool × Adj V) :=
  match linearize d with
  | .error e => .error e
  | .ok p =>
    if (edges p.2).all (fun e => decide (e.1 ∈ p.1) && decide (e.2 ∈ p.1)) then
      .ok ((edges p.2).all (fun e => decide (p.1.indexOf e.1 < p.1.indexOf e.2)), p.2)
    else .error ()

/-- Model of `Graph.sccs()` (Kosaraju): the transpose is built before the
`linearize` generator runs; the second pass explores the transposed dict
in `linearize` order.  Running `linearize` eagerly first is observationally
equivalent to the lazy interleaving because the two passes touch disjoint
dicts. -/
def sccs (d : Adj V) : Except Unit (List (List V) × Adj V) :=
  let T := transpose d
  match linearize d with
  | .error e => .error e
  | .ok p =>
    let r := spanning_forest_on (dfsFuel T p.1) T p.1 []
    .ok (r.1.map (fun t => postorderL (postFuel T p.1) [t]), p.2)

/-- Assoc-list lookup (a plain, non-default Python dict read). -/
def lookupA {α : Type} : List (V × α) → V → Option α
  | [], _ => none
  | (k, a) :: rest, v => if k = v then some a else lookupA rest v

/-- Contract every edge of the graph through `contract`; edges inside one
component are dropped.  A missing `contract` key would be a `KeyError`
(`Option.none` here), which cannot occur when `sccs` succeeded. -/
def contractEdges (contract : List (V × Finset V)) : List (V × V) → Option (List (Finset V × Finset V))
  | [] => some []
  | e :: rest =>
    match lookupA contract e.1, lookupA contract e.2 with
    | some cu, some cv =>
      match contractEdges contract rest with
      | some ces => some (if cu = cv then ces else (cu, cv) :: ces)
      | none => none
    | _, _ => none

/-- Model of `Graph.condensation()`: map every vertex to the `frozenset`
of its Kosaraju component (`Finset V` here) and rebuild a graph from the
contracted cross-component edges. -/
def condensation (d : Adj V) : Except Unit (Adj (Finset V) × Adj V) :=
  match sccs d with
  | .error e => .error e
  | .ok p =>
    let contract : List (V × Finset V) :=
      (p.1.map (fun scc => scc.map (fun v => (v, scc.toFinset)))).flatten
    match contractEdges contract (edges p.2) with
    | some ces => .ok (ofEdges ces, p.2)
    | none => .error ()

/-- State of the `shortest_path` relaxation loop: tentative distances,
predecessor pointers, and the flat frontier set `Q` (modelled as a
duplicate-free list in insertion order). -/
structure SPState (V : Type) where
  dist : List (V × Int)
  prev : List (V × Option V)
  Q : List V

/-- Assoc-list update, overwriting in place (Python dict assignment). -/
def assocSet {α : Type} : List (V × α) → V → α → List (V × α)
  | [], v, a => [(v, a)]
  | (k, b) :: rest, v, a =>
    if k = v then (k, a) :: rest else (k, b) :: assocSet rest v a

/-- Python `set.add`: no-op when the element is already present. -/
def setAdd (q : List V) (v : V) : List V := if v ∈ q then q else q ++ [v]

/-- Value of `dist[v]`; every lookup the algorithm performs is of a key
known to be present, so the default is never read. -/
def distOf (dist : List (V × Int)) (v : V) : Int := (lookupA dist v).getD 0

/-- Model of `min(Q, key=dist.get)`: fold over the remaining frontier
keeping the current best, replacing it only on strict improvement, so the
first minimal element (in iteration order) wins, as Python's `min` does. -/
def argminD (dist : List (V × Int)) : List V → V → V
  | [], best => best
  | v :: rest, best =>
    if distOf dist v < distOf dist best then argminD dist rest v
    else argminD dist rest best

/-- Model of the inner `for v in self.neighbors(u)` relaxation loop of
`shortest_path`: improve `dist`/`prev` and extend the frontier whenever
`v not in dist or alt < dist[v]`. -/
def relaxAll (w : V × V → Int) (u : V) : List V → SPState V → SPState V
  | [], st => st
  | v :: rest, st =>
    let alt := distOf st.dist u + w (u, v)
    let upd : Bool :=
      match lookupA st.dist v with
      | none => true
      | some dv => decide (alt < dv)
    if upd then
      relaxAll w u rest
        ⟨assocSet st.dist v alt, assocSet st.prev v (some u), setAdd st.Q v⟩
    else relaxAll w u rest st

/-- Model of the `while Q:` loop of `shortest_path`.  Each iteration
extracts the frontier element of minimum tentative distance, stops when it
is the target, and otherwise relaxes its outgoing edges.  With an
arbitrary (possibly negative) weight function the Python loop need not
terminate, so the model carries fuel and returns `none` only on
exhaustion; the neighbour read's defaultdict insertion is dropped here
because an inserted empty entry can never change any later value the loop
reads. -/
def spLoop (g : Adj V) (w : V × V → Int) (t : V) : Nat → SPState V → Option (SPState V)
  | 0, _ => none
  | fuel+1, st =>
    match st.Q with
    | [] => some st
    | q0 :: qrest =>
      let u := argminD st.dist qrest q0
      let st1 : SPState V := ⟨st.dist, st.prev, st.Q.erase u⟩
      if u = t then some st1
      else spLoop g w t fuel (relaxAll w u (dictGet g u).1 st1)

/-- Model of the final `while t is not None` reconstruction: follow `prev`
pointers back from `t`, accumulating the path already reversed (the Python
code appends and then returns `reversed(path)`).  The chain always reaches
the start vertex (whose `prev` is `None`) within `prev.length` steps. -/
def buildPath (prev : List (V × Option V)) : Nat → V → List V → Option (List V)
  | 0, _, _ => none
  | fuel+1, cur, acc =>
    match lookupA prev cur with
    | none => none
    | some none => some (cur :: acc)
    | some (some u) => buildPath prev fuel u (cur :: acc)

/-- Model of `Graph.shortest_path(s, t, weight)`.  The result is
`some (some p)` for a returned path, `some none` for the Python `None`
(no path), and `none` only on fuel exhaustion, which for the weight
functions considered in the claims never happens. -/
def shortest_path (g : Adj V) (s t : V) (w : V × V → Int) : Option (Option (List V)) :=
  match spLoop g w t (g.length + (edges g).length + 2) ⟨[(s, 0)], [(s, none)], [s]⟩ with
  | none => none
  | some st =>
    match lookupA st.prev t with
    | none => some none
    | some _ =>
      match buildPath st.prev (st.prev.length + 1) t [] with
      | none => none
      | some p => some (some p)

/-! Mathematical (specification-side) notions used to state the claims:
reachability by a directed path, strong connectivity, acyclicity, and
concrete paths with their lengths.  These are phrased directly over an
edge list, independent of the implementation above. -/

/-- One directed edge step of the edge list `es`. -/
def edgeStep (es : List (V × V)) (u v : V) : Prop := (u, v) ∈ es

/-- Reachability by a (possibly empty) directed path. -/
def mreach (es : List (V × V)) (u v : V) : Prop :=
  Relation.ReflTransGen (edgeStep es) u v

/-- Two vertices lie in one strongly connected component: each reaches the
other. -/
def sameSCC (es : List (V × V)) (u v : V) : Prop := mreach es u v ∧ mreach es v u

/-- An edge list is acyclic when no vertex lies on a nonempty directed
cycle. -/
def acyclicRel (es : List (V × V)) : Prop :=
  ∀ v, ¬ Relation.TransGen (edgeStep es) v v

/-- The vertex list `p` is a directed path from `s` to `t` over `es`. -/
def pathIn (es : List (V × V)) (s t : V) (p : List V) : Prop :=
  p.head? = some s ∧ p.getLast? = some t ∧ List.Chain' (edgeStep es) p

/-- There is a directed walk of exactly `n` edges from `u` to `v` in `es`. -/
def stepsN (es : List (V × V)) : Nat → V → V → Prop
  | 0, u, v => u = v
  | n+1, u, v => ∃ m, stepsN es n u m ∧ edgeStep es m v

/-- Keys of an association list, in entry order. -/
def keysOf {α : Type} (l : List (V × α)) : List V := l.map Prod.fst

/-- Settled vertices of a `shortest_path` state: vertices with a recorded
distance that are no longer on the frontier. -/
def settledL (st : SPState V) : List V :=
  (keysOf st.dist).filter (fun v => decide (v ∉ st.Q))

/-- Invariant of the `shortest_path` relaxation loop (unit weights) that
holds at every point of the iteration, including in the middle of a relax
phase and after the early break: bookkeeping of the three maps, soundness
of every tentative distance (it is the length of an actual walk from the
start), consistency of the predecessor pointers, and optimality of every
settled vertex. -/
structure SPBase (es : List (V × V)) (s : V) (st : SPState V) : Prop where
  dk_nodup : (keysOf st.dist).Nodup
  pk_eq : keysOf st.prev = keysOf st.dist
  q_sub : ∀ v ∈ st.Q, v ∈ keysOf st.dist
  q_nodup : st.Q.Nodup
  start_mem : s ∈ keysOf st.dist
  start_zero : lookupA st.dist s = some 0
  keys_ok : ∀ v ∈ keysOf st.dist, v = s ∨ ∃ u, edgeStep es u v
  dist_nat : ∀ v k, lookupA st.dist v = some k → ∃ kn : Nat, k = (kn : Int) ∧ stepsN es kn s v
  prev_none : ∀ v, lookupA st.prev v = some none → v = s
  prev_some : ∀ v u, lookupA st.prev v = some (some u) → edgeStep es u v ∧
      u ∈ keysOf st.dist ∧ u ∉ st.Q ∧
      ∃ ku kv : Int, lookupA st.dist u = some ku ∧ lookupA st.dist v = some kv ∧ kv = ku + 1
  settled_min : ∀ x ∈ keysOf st.dist, x ∉ st.Q → ∀ q ∈ st.Q,
      ∀ kx kq : Int, lookupA st.dist x = some kx → lookupA st.dist q = some kq → kx ≤ kq
  settled_exact : ∀ x ∈ keysOf st.dist, x ∉ st.Q → ∀ kx : Int, lookupA st.dist x = some kx →
      ∀ m : Nat, stepsN es m s x → kx ≤ (m : Int)

/-- Every settled vertex has all its outgoing edges relaxed.  This breaks
momentarily for the vertex being relaxed and is not needed after an early
break, so it is kept separate from `SPBase`. -/
def SPFrontier (es : List (V × V)) (st : SPState V) : Prop :=
  ∀ x ∈ keysOf st.dist, x ∉ st.Q → ∀ v, edgeStep es x v →
    v ∈ keysOf st.dist ∧ ∀ kx kv : Int, lookupA st.dist x = some kx →
      lookupA st.dist v = some kv → kv ≤ kx + 1

/-- Invariant bundle for the relax phase of one loop iteration: the state
after extracting the minimum vertex `u` (whose recorded distance is `ku`),
satisfying `SPBase`, with `u` settled and optimal, every settled distance
at most `ku`, every frontier distance at least `ku`, and the frontier
property available for every settled vertex except possibly `u` itself. -/
structure RelaxInv (es : List (V × V)) (s u : V) (ku : Int) (st : SPState V) : Prop where
  base : SPBase es s st
  u_mem : u ∈ keysOf st.dist
  u_nq : u ∉ st.Q
  u_dist : lookupA st.dist u = some ku
  settled_le : ∀ x ∈ keysOf st.dist, x ∉ st.Q → ∀ kx : Int,
      lookupA st.dist x = some kx → kx ≤ ku
  q_ge : ∀ q ∈ st.Q, ∀ kq : Int, lookupA st.dist q = some kq → ku ≤ kq
  front_except : ∀ x ∈ keysOf st.dist, x ∉ st.Q → x ≠ u → ∀ v2, edgeStep es x v2 →
      v2 ∈ keysOf st.dist ∧ ∀ kx kv : Int, lookupA st.dist x = some kx →
        lookupA st.dist v2 = some kv → kv ≤ kx + 1

/-- Decidable equality of operation results (the error payload is `Unit`). -/
instance exceptUnitDecEq {α : Type} [DecidableEq α] : DecidableEq (Except Unit α) := fun a b =>
  match a, b with
  | .error (), .error () => isTrue rfl
  | .ok x, .ok y =>
    if h : x = y then isTrue (congrArg Except.ok h)
    else isFalse (fun hc => h (Except.ok.inj hc))
  | .error (), .ok _ => isFalse (fun hc => Except.noConfusion hc)
  | .ok _, .error () => isFalse (fun hc => Except.noConfusion hc)

/-- Edge list of the module-level `test_graph` fixture (the Wikipedia SCC
example), with vertices `a..h` encoded as `0..7`. -/
def test_edges : List (Nat × Nat) :=
  [(0, 1), (1, 4), (4, 0), (1, 5), (4, 5), (5, 6), (6, 5),
   (1, 2), (2, 3), (3, 2), (3, 7), (7, 3), (2, 6), (7, 6)]

/-- The `test_graph` fixture itself. -/
def test_graph : Adj Nat := ofEdges test_edges

/-- Edge list of a three-vertex graph on which the second Kosaraju pass
goes wrong: vertex `0` is iterated first, its spanning tree swallows `1`,
and the remaining order makes the transposed pass merge `1` and `2`.
Every target is a key, so no traversal ever auto-inserts here. -/
def kosarajuCE : List (Nat × Nat) := [(0, 1), (1, 1), (2, 1)]

/-! Helper lemmas about the dict model, shared by several claims. -/

theorem dictGet_fst (d : Adj V) (v : V) : (dictGet d v).1 = (lookupA d v).getD [] := by
  induction d with
  | nil => rfl
  | cons p rest ih =>
    obtain ⟨k, ns⟩ := p
    by_cases h : k = v <;> simp [dictGet, lookupA, h, ih]

theorem dictGet_snd (d : Adj V) (v : V) :
    (dictGet d v).2 = if (lookupA d v).isSome then d else d ++ [(v, [])] := by
  induction d with
  | nil => rfl
  | cons p rest ih =>
    obtain ⟨k, ns⟩ := p
    by_cases h : k = v
    · simp [dictGet, lookupA, h]
    · by_cases h2 : (lookupA rest v).isSome <;>
        simp [dictGet, lookupA, h, ih, h2]

theorem lookupA_isSome_iff (d : Adj V) (v : V) :
    (lookupA d v).isSome ↔ v ∈ vertices d := by
  induction d with
  | nil => simp [lookupA, vertices]
  | cons p rest ih =>
    obtain ⟨k, ns⟩ := p
    by_cases h : k = v <;> simp [lookupA, vertices, h, ih] <;> tauto

theorem edges_append (d1 d2 : Adj V) : edges (d1 ++ d2) = edges d1 ++ edges d2 := by
  simp [edges]

theorem lookupA_addEdge_self (d : Adj V) (u w : V) :
    lookupA (addEdge d u w) u =
      some (if w ∈ (lookupA d u).getD [] then (lookupA d u).getD []
            else (lookupA d u).getD [] ++ [w]) := by
  induction d with
  | nil => simp [addEdge, lookupA]
  | cons p rest ih =>
    obtain ⟨k, ns⟩ := p
    by_cases hk : k = u
    · subst hk
      simp [addEdge, lookupA]
    · simp [addEdge, lookupA, hk, ih]

theorem lookupA_addEdge_ne (d : Adj V) (u w v : V) (h : v ≠ u) :
    lookupA (addEdge d u w) v = lookupA d v := by
  have h2 : ¬ u = v := fun hh => h hh.symm
  induction d with
  | nil => simp [addEdge, lookupA, h2]
  | cons p rest ih =>
    obtain ⟨k, ns⟩ := p
    by_cases hk : k = u
    · subst hk
      simp [addEdge, lookupA, h2]
    · by_cases hv : k = v
      · subst hv
        simp [addEdge, lookupA, hk]
      · simp [addEdge, lookupA, hk, hv, ih]

theorem mem_lookupA_addEdge (d : Adj V) (u w v x : V) :
    x ∈ (lookupA (addEdge d u w) v).getD [] ↔
      x ∈ (lookupA d v).getD [] ∨ (v = u ∧ x = w) := by
  by_cases hv : v = u
  · subst hv
    rw [lookupA_addEdge_self]
    by_cases hw : w ∈ (lookupA d v).getD []
    · simp only [if_pos hw, Option.getD_some]
      constructor
      · exact fun h => Or.inl h
      · rintro (h | ⟨-, rfl⟩)
        · exact h
        · exact hw
    · simp only [if_neg hw, Option.getD_some, List.mem_append, List.mem_singleton]
      aesop
  · rw [lookupA_addEdge_ne d u w v hv]
    simp [hv]

theorem mem_adj_foldl (es : List (V × V)) (d : Adj V) (v x : V) :
    x ∈ (lookupA (es.foldl (fun d e => addEdge d e.1 e.2) d) v).getD [] ↔
      x ∈ (lookupA d v).getD [] ∨ (v, x) ∈ es := by
  induction es generalizing d with
  | nil => simp
  | cons e rest ih =>
    obtain ⟨a, b⟩ := e
    simp only [List.foldl_cons, ih, mem_lookupA_addEdge, List.mem_cons, Prod.mk.injEq]
    constructor
    · rintro ((h | ⟨rfl, rfl⟩) | h)
      · exact Or.inl h
      · exact Or.inr (Or.inl ⟨rfl, rfl⟩)
      · exact Or.inr (Or.inr h)
    · rintro (h | ⟨rfl, rfl⟩ | h)
      · exact Or.inl (Or.inl h)
      · exact Or.inl (Or.inr ⟨rfl, rfl⟩)
      · exact Or.inr h

theorem mem_adj_ofEdges (es : List (V × V)) (v x : V) :
    x ∈ (lookupA (ofEdges es) v).getD [] ↔ (v, x) ∈ es := by
  simpa [ofEdges, lookupA] using mem_adj_foldl es [] v x

theorem fst_mem_vertices_of_mem_edges (d : Adj V) (u x : V) (h : (u, x) ∈ edges d) :
    u ∈ vertices d := by
  induction d with
  | nil => simp [edges] at h
  | cons p rest ih =>
    obtain ⟨k, ns⟩ := p
    simp only [edges, List.map_cons, List.flatten_cons, List.mem_append, List.mem_map] at h
    rcases h with ⟨y, _, hy⟩ | h
    · simp [vertices, (Prod.mk.injEq .. ▸ hy).1.symm]
    · exact List.mem_cons_of_mem _ (ih h)

theorem mem_edges_iff_of_nodup (d : Adj V) (hnd : (vertices d).Nodup) (u x : V) :
    (u, x) ∈ edges d ↔ x ∈ (lookupA d u).getD [] := by
  induction d with
  | nil => simp [edges, lookupA]
  | cons p rest ih =>
    obtain ⟨k, ns⟩ := p
    simp only [vertices, List.map_cons, List.nodup_cons] at hnd
    have hrest := ih hnd.2
    simp only [edges] at hrest
    by_cases hk : k = u
    · subst hk
      rw [show lookupA ((k, ns) :: rest) k = some ns from by simp [lookupA]]
      simp only [edges, List.map_cons, List.flatten_cons, List.mem_append, List.mem_map,
        Option.getD_some]
      constructor
      · rintro (⟨y, hy, hyx⟩ | h)
        · have hyx2 : y = x := congrArg Prod.snd hyx
          exact hyx2 ▸ hy
        · exact absurd (fst_mem_vertices_of_mem_edges rest k x h) hnd.1
      · intro h
        exact Or.inl ⟨x, h, rfl⟩
    · rw [show lookupA ((k, ns) :: rest) u = lookupA rest u from by simp [lookupA, hk]]
      simp only [edges, List.map_cons, List.flatten_cons, List.mem_append, List.mem_map]
      rw [hrest]
      constructor
      · rintro (⟨y, hy, hyx⟩ | h)
        · exact absurd (congrArg Prod.fst hyx) hk
        · exact h
      · exact fun h => Or.inr h

theorem vertices_addEdge (d : Adj V) (u w : V) :
    vertices (addEdge d u w) =
      if u ∈ vertices d then vertices d else vertices d ++ [u] := by
  induction d with
  | nil => simp [addEdge, vertices]
  | cons p rest ih =>
    obtain ⟨k, ns⟩ := p
    by_cases hk : k = u
    · subst hk
      simp [addEdge, vertices]
    · have hne : ¬ u = k := fun hh => hk hh.symm
      by_cases hu : u ∈ vertices rest
      · simp only [vertices] at ih hu
        simp [addEdge, vertices, hk, hne, hu, ih]
      · simp only [vertices] at ih hu
        simp [addEdge, vertices, hk, hne, hu, ih]

theorem nodup_vertices_addEdge (d : Adj V) (u w : V) (h : (vertices d).Nodup) :
    (vertices (addEdge d u w)).Nodup := by
  rw [vertices_addEdge]
  by_cases hu : u ∈ vertices d
  · simpa [hu] using h
  · simp [List.nodup_append, hu, h]

theorem nodup_vertices_ofEdges (es : List (V × V)) : (vertices (ofEdges es)).Nodup := by
  suffices h : ∀ d : Adj V, (vertices d).Nodup →
      (vertices (es.foldl (fun d e => addEdge d e.1 e.2) d)).Nodup from
    h [] (by simp [vertices])
  induction es with
  | nil => exact fun d hd => hd
  | cons e rest ih => exact fun d hd => ih _ (nodup_vertices_addEdge d e.1 e.2 hd)

theorem mem_edges_ofEdges (es : List (V × V)) (e : V × V) :
    e ∈ edges (ofEdges es) ↔ e ∈ es := by
  obtain ⟨u, x⟩ := e
  rw [mem_edges_iff_of_nodup _ (nodup_vertices_ofEdges es), mem_adj_ofEdges]

theorem mem_edges_transpose (d : Adj V) (e : V × V) :
    e ∈ edges (transpose d) ↔ (e.2, e.1) ∈ edges d := by
  rw [transpose, mem_edges_ofEdges, List.mem_map]
  constructor
  · rintro ⟨a, ha, rfl⟩
    simpa using ha
  · intro h
    exact ⟨(e.2, e.1), h, rfl⟩

/-- A relation that is strictly monotone under some vertex rank has no
directed cycle. -/
theorem acyclicRel_of_rank (es : List (V × V)) (f : V → Nat)
    (hf : ∀ x y, edgeStep es x y → f x < f y) : acyclicRel es := by
  intro v hv
  have key : ∀ x y, Relation.TransGen (edgeStep es) x y → f x < f y := by
    intro x y h
    induction h with
    | single h1 => exact hf _ _ h1
    | tail h1 h2 ih => exact lt_trans ih (hf _ _ h2)
  exact absurd (key v v hv) (lt_irrefl _)

/-- On the counterexample graph `kosarajuCE`, every vertex reachable from
`1` is `1` itself (its only outgoing edge is the self-loop). -/
theorem kosarajuCE_reach_from_one (x : Nat) (h : mreach kosarajuCE 1 x) : x = 1 := by
  induction h with
  | refl => rfl
  | tail hr hstep ih =>
    subst ih
    simp only [edgeStep, kosarajuCE, List.mem_cons, List.not_mem_nil, or_false,
      Prod.mk.injEq] at hstep
    rcases hstep with ⟨h1, h2⟩ | ⟨h1, h2⟩ | ⟨h1, h2⟩ <;> omega

/-- C1: the claim says `sccs()` partitions the vertices into strongly
connected components, two vertices sharing a component iff they are
mutually reachable.  On the graph with edges `{0→1, 1→1, 2→1}` the code
returns the components `[0]` and `[2, 1]`, yet `2` is not reachable from
`1`, so the returned blocks are not the strongly connected components.
(The second Kosaraju pass is run in forest order instead of reverse global
finishing order.) -/
theorem c1_sccs_returns_non_scc_block :
    sccs (ofEdges kosarajuCE) = .ok ([[0], [2, 1]], ofEdges kosarajuCE) ∧
    edges (ofEdges kosarajuCE) = kosarajuCE ∧
    ¬ sameSCC kosarajuCE 2 1 := by
  refine ⟨rfl, rfl, ?_⟩
  rintro ⟨h21, h12⟩
  have := kosarajuCE_reach_from_one 2 h12
  omega

/-- C2: the claim says `vertices`, `neighbors`, `ccs`, `linearize`,
`acyclic`, `sccs` and `condensation` are total and error-free on every
finite edge list, including graphs with vertices that have no outgoing
edges.  On `Graph([(0, 1)])` the vertex `1` has no outgoing edges, so the
traversal's `neighbors(1)` auto-inserts key `1` into the adjacency dict
while `spanning_forest` is iterating its key view, and CPython raises
`RuntimeError: dictionary changed size during iteration` in all five
traversal-based operations. -/
theorem c2_traversals_raise_on_sink_vertex :
    ccs (ofEdges [((0 : Nat), 1)]) = .error () ∧
    linearize (ofEdges [((0 : Nat), 1)]) = .error () ∧
    acyclic (ofEdges [((0 : Nat), 1)]) = .error () ∧
    sccs (ofEdges [((0 : Nat), 1)]) = .error () ∧
    condensation (ofEdges [((0 : Nat), 1)]) = .error () :=
  ⟨rfl, rfl, rfl, rfl, rfl⟩

/-- C3: the claim says `acyclic()` returns true exactly on graphs without
reachable directed cycles, in particular true on a DAG.  On the DAG
`Graph([(0, 1), (1, 2)])` the code instead raises `RuntimeError` (the
sink `2` is auto-inserted during the key-view iteration); on the 2-cycle
`Graph([(0, 1), (1, 0)])` it does return false. -/
theorem c3_acyclic_raises_on_dag :
    acyclic (ofEdges [((0 : Nat), 1), (1, 2)]) = .error () ∧
    acyclic (ofEdges [((0 : Nat), 1), (1, 0)]) =
      .ok (false, ofEdges [((0 : Nat), 1), (1, 0)]) :=
  ⟨rfl, rfl⟩

/-- C4: the claim says `linearize()` on an acyclic graph yields a
topological permutation of the vertices.  On the acyclic graph
`Graph([(0, 1), (0, 2)])` consuming `linearize()` instead raises
`RuntimeError` (the sinks `1` and `2` are auto-inserted during the
key-view iteration). -/
theorem c4_linearize_raises_on_acyclic_graph :
    linearize (ofEdges [((0 : Nat), 1), (0, 2)]) = .error () := rfl

/-- C5: the claim says `condensation()` has exactly one vertex per
strongly connected component.  On the graph with edges `{0→1, 1→1, 2→1}`
(whose strongly connected components are `{0}`, `{1}`, `{2}`) the code
builds the contracted blocks `{0}` and `{1, 2}`, and `{1, 2}` is not a
strongly connected component: `2` is not reachable from `1`. -/
theorem c5_condensation_block_not_an_scc :
    condensation (ofEdges kosarajuCE) =
      .ok ([([0].toFinset, [[2, 1].toFinset])], ofEdges kosarajuCE) ∧
    edges (ofEdges kosarajuCE) = kosarajuCE ∧
    ¬ sameSCC kosarajuCE 2 1 := by
  refine ⟨rfl, rfl, ?_⟩
  rintro ⟨h21, h12⟩
  have := kosarajuCE_reach_from_one 2 h12
  omega

/-- C6: on the canonical fixture (`test_graph`, vertices `a..h` as
`0..7`), `sccs()` returns exactly the components `{a,b,e}`, `{c,d,h}`,
`{f,g}` (as sets), and `condensation()` returns a graph whose edge set is
exactly `{a,b,e}→{c,d,h}`, `{a,b,e}→{f,g}`, `{c,d,h}→{f,g}` on those
three component vertices, and that edge relation is acyclic. -/
theorem c6_fixture_sccs_and_condensation :
    sccs test_graph = .ok ([[1, 4, 0], [7, 3, 2], [6, 5]], test_graph) ∧
    ([1, 4, 0].toFinset = ({0, 1, 4} : Finset Nat) ∧
     [7, 3, 2].toFinset = ({2, 3, 7} : Finset Nat) ∧
     [6, 5].toFinset = ({5, 6} : Finset Nat)) ∧
    condensation test_graph =
      .ok ([([1, 4, 0].toFinset, [[6, 5].toFinset, [7, 3, 2].toFinset]),
            ([7, 3, 2].toFinset, [[6, 5].toFinset])], test_graph) ∧
    edges [([1, 4, 0].toFinset, [[6, 5].toFinset, [7, 3, 2].toFinset]),
           ([7, 3, 2].toFinset, [[6, 5].toFinset])] =
      [([1, 4, 0].toFinset, [6, 5].toFinset), ([1, 4, 0].toFinset, [7, 3, 2].toFinset),
       ([7, 3, 2].toFinset, [6, 5].toFinset)] ∧
    acyclicRel [([1, 4, 0].toFinset, [6, 5].toFinset),
       ([1, 4, 0].toFinset, [7, 3, 2].toFinset),
       ([7, 3, 2].toFinset, [6, 5].toFinset)] := by
  refine ⟨rfl, ⟨by decide, by decide, by decide⟩, rfl, rfl, ?_⟩
  refine acyclicRel_of_rank _
    (fun s => if s = [1, 4, 0].toFinset then 0 else
              if s = [7, 3, 2].toFinset then 1 else 2) ?_
  intro x y hxy
  simp only [edgeStep, List.mem_cons, List.not_mem_nil, or_false, Prod.mk.injEq] at hxy
  rcases hxy with ⟨rfl, rfl⟩ | ⟨rfl, rfl⟩ | ⟨rfl, rfl⟩ <;> decide


/-- C8 counterexample: the claim says a `neighbors(v)` query leaves the
result of `vertices()` unchanged.  On `Graph([(0, 1)])`, querying
`neighbors(1)` auto-inserts the key `1` (a defaultdict read), so
`vertices()` afterwards is `[0, 1]` instead of `[0]`. -/
theorem c8_neighbors_changes_vertices :
    vertices ((neighbors (ofEdges [((0 : Nat), 1)]) 1).2) ≠
      vertices (ofEdges [((0 : Nat), 1)]) := by
  decide

/-- A defaultdict read never changes the stored edges. -/
theorem edges_dictGet (d : Adj V) (v : V) : edges (dictGet d v).2 = edges d := by
  rw [dictGet_snd]
  by_cases h : (lookupA d v).isSome
  · rw [if_pos h]
  · rw [if_neg h, edges_append]
    simp [edges]

/-- A defaultdict read keeps every existing key. -/
theorem vertices_dictGet_sub (d : Adj V) (v : V) :
    ∀ x ∈ vertices d, x ∈ vertices (dictGet d v).2 := by
  intro x hx
  rw [dictGet_snd]
  by_cases h : (lookupA d v).isSome
  · rw [if_pos h]
    exact hx
  · rw [if_neg h]
    simp only [vertices, List.map_append] at hx ⊢
    exact List.mem_append_left _ hx

/-- Depth-first exploration only reads the dict through `dictGet`, so it
never changes the edge set and only extends the key set. -/
theorem dfs_frame (fuel : Nat) :
    (∀ (d : Adj V) (v : V) (vis : List V),
      edges (spanning_tree fuel d v vis).2.1 = edges d ∧
      ∀ x ∈ vertices d, x ∈ vertices (spanning_tree fuel d v vis).2.1) ∧
    (∀ (d : Adj V) (vs vis : List V),
      edges (spanning_forest_on fuel d vs vis).2.1 = edges d ∧
      ∀ x ∈ vertices d, x ∈ vertices (spanning_forest_on fuel d vs vis).2.1) := by
  induction fuel with
  | zero =>
    exact ⟨fun d v vis => ⟨rfl, fun x hx => hx⟩, fun d vs vis => ⟨rfl, fun x hx => hx⟩⟩
  | succ fuel ih =>
    constructor
    · intro d v vis
      have h1 := ih.2 (dictGet d v).2 (dictGet d v).1 (v :: vis)
      refine ⟨?_, ?_⟩
      · show edges (spanning_forest_on fuel (dictGet d v).2 (dictGet d v).1 (v :: vis)).2.1
          = edges d
        rw [h1.1, edges_dictGet]
      · intro x hx
        exact h1.2 x (vertices_dictGet_sub d v x hx)
    · intro d vs vis
      cases vs with
      | nil => exact ⟨rfl, fun x hx => hx⟩
      | cons w ws =>
        by_cases hw : w ∈ vis
        · simp only [spanning_forest_on, if_pos hw]
          exact ih.2 d ws vis
        · simp only [spanning_forest_on, if_neg hw]
          have ht := ih.1 d w vis
          have hf := ih.2 (spanning_tree fuel d w vis).2.1 ws (spanning_tree fuel d w vis).2.2
          exact ⟨by rw [hf.1, ht.1], fun x hx => hf.2 x (ht.2 x hx)⟩

/-- A completed default `spanning_forest` run never changes the edge set
and only extends the key set. -/
theorem forest_keys_go_frame (tf : Nat) :
    ∀ (ks : List V) (n0 : Nat) (d : Adj V) (vis : List V)
      (r : List (Tree V) × Adj V × List V),
      forest_keys_go tf ks n0 d vis = .ok r →
      edges r.2.1 = edges d ∧ ∀ x ∈ vertices d, x ∈ vertices r.2.1 := by
  intro ks
  induction ks with
  | nil =>
    intro n0 d vis r h
    simp only [forest_keys_go] at h
    by_cases hn : d.length = n0
    · rw [if_pos hn] at h
      injection h with h2
      rw [← h2]
      exact ⟨rfl, fun x hx => hx⟩
    · rw [if_neg hn] at h
      exact absurd h (by simp)
  | cons w ws ih =>
    intro n0 d vis r h
    simp only [forest_keys_go] at h
    by_cases hn : d.length = n0
    · rw [if_pos hn] at h
      by_cases hw : w ∈ vis
      · rw [if_pos hw] at h
        exact ih n0 d vis r h
      · rw [if_neg hw] at h
        cases hrec : forest_keys_go tf ws n0 (spanning_tree tf d w vis).2.1
            (spanning_tree tf d w vis).2.2 with
        | error e =>
          rw [hrec] at h
          exact absurd h (by simp)
        | ok p =>
          rw [hrec] at h
          injection h with h2
          have ht := (dfs_frame tf).1 d w vis
          have hp := ih n0 _ _ p hrec
          rw [← h2]
          exact ⟨by rw [hp.1, ht.1], fun x hx => hp.2 x (ht.2 x hx)⟩
    · rw [if_neg hn] at h
      exact absurd h (by simp)

theorem spanning_forest_frame (d : Adj V) (r : List (Tree V) × Adj V)
    (h : spanning_forest d = .ok r) :
    edges r.2 = edges d ∧ ∀ x ∈ vertices d, x ∈ vertices r.2 := by
  unfold spanning_forest at h
  cases hgo : forest_keys_go (dfsFuel d (vertices d)) (vertices d) d.length d [] with
  | error e =>
    rw [hgo] at h
    exact absurd h (by simp)
  | ok p =>
    rw [hgo] at h
    injection h with h2
    have hp := forest_keys_go_frame _ _ _ _ _ p hgo
    rw [← h2]
    exact hp

theorem linearize_frame (d : Adj V) (r : List V × Adj V) (h : linearize d = .ok r) :
    edges r.2 = edges d ∧ ∀ x ∈ vertices d, x ∈ vertices r.2 := by
  unfold linearize at h
  cases hsf : spanning_forest d with
  | error e =>
    rw [hsf] at h
    exact absurd h (by simp)
  | ok p =>
    rw [hsf] at h
    injection h with h2
    have hp := spanning_forest_frame d p hsf
    rw [← h2]
    exact hp

/-- C8 (amended): `neighbors(v)` returns exactly the direct successors of
`v` (the empty set when `v` has no outgoing edges, including unknown
vertices) without failing, and it never changes the edge set; however,
querying a vertex that is not an adjacency key inserts it as a fresh key,
so `vertices()` afterwards additionally contains `v`.  More generally, no
completed operation that reads adjacencies of the receiver — `reachable`
and the traversal-based operations `spanning_forest`, `ccs`, `linearize`,
`acyclic`, `sccs` and `condensation` — ever changes the receiver's edge
set, and the key set only ever grows (every previous key survives). -/
theorem c8_amended_neighbors_reads_successors (es : List (V × V)) (v x : V) :
    ((x ∈ (neighbors (ofEdges es) v).1) ↔ (v, x) ∈ es) ∧
    edges ((neighbors (ofEdges es) v).2) = edges (ofEdges es) ∧
    vertices ((neighbors (ofEdges es) v).2) =
      (if v ∈ vertices (ofEdges es) then vertices (ofEdges es)
       else vertices (ofEdges es) ++ [v]) ∧
    (∀ (d : Adj V) (a b : V),
      edges (reachable d a b).2 = edges d ∧
      ∀ y ∈ vertices d, y ∈ vertices (reachable d a b).2) ∧
    (∀ (d : Adj V) r, spanning_forest d = .ok r →
      edges r.2 = edges d ∧ ∀ y ∈ vertices d, y ∈ vertices r.2) ∧
    (∀ (d : Adj V) r, ccs d = .ok r →
      edges r.2 = edges d ∧ ∀ y ∈ vertices d, y ∈ vertices r.2) ∧
    (∀ (d : Adj V) r, linearize d = .ok r →
      edges r.2 = edges d ∧ ∀ y ∈ vertices d, y ∈ vertices r.2) ∧
    (∀ (d : Adj V) r, acyclic d = .ok r →
      edges r.2 = edges d ∧ ∀ y ∈ vertices d, y ∈ vertices r.2) ∧
    (∀ (d : Adj V) r, sccs d = .ok r →
      edges r.2 = edges d ∧ ∀ y ∈ vertices d, y ∈ vertices r.2) ∧
    (∀ (d : Adj V) r, condensation d = .ok r →
      edges r.2 = edges d ∧ ∀ y ∈ vertices d, y ∈ vertices r.2) := by
  refine ⟨?_, ?_, ?_, ?_, fun d r h => spanning_forest_frame d r h,
    ?_, fun d r h => linearize_frame d r h, ?_, ?_, ?_⟩
  · rw [neighbors, dictGet_fst, mem_adj_ofEdges]
  · rw [neighbors]
    exact edges_dictGet (ofEdges es) v
  · rw [neighbors, dictGet_snd]
    by_cases h : v ∈ vertices (ofEdges es)
    · simp [h, (lookupA_isSome_iff _ _).mpr h]
    · have h2 : ¬ (lookupA (ofEdges es) v).isSome = true := fun hs =>
        h ((lookupA_isSome_iff _ _).mp hs)
      rw [if_neg h2, if_neg h]
      simp [vertices]
  · -- reachable
    intro d a b
    have ht := (dfs_frame (dfsFuel d [a])).1 d a []
    exact ⟨ht.1, ht.2⟩
  · -- ccs
    intro d r h
    unfold ccs at h
    cases hsf : spanning_forest d with
    | error e =>
      rw [hsf] at h
      exact absurd h (by simp)
    | ok p =>
      rw [hsf] at h
      injection h with h2
      have hp := spanning_forest_frame d p hsf
      rw [← h2]
      exact hp
  · -- acyclic
    intro d r h
    unfold acyclic at h
    cases hlin : linearize d with
    | error e =>
      rw [hlin] at h
      exact absurd h (by simp)
    | ok p =>
      simp only [hlin] at h
      have hp := linearize_frame d p hlin
      by_cases hg : (edges p.2).all (fun e => decide (e.1 ∈ p.1) && decide (e.2 ∈ p.1))
      · rw [if_pos hg] at h
        injection h with h2
        rw [← h2]
        exact hp
      · rw [if_neg hg] at h
        exact absurd h (by simp)
  · -- sccs
    intro d r h
    unfold sccs at h
    cases hlin : linearize d with
    | error e =>
      rw [hlin] at h
      exact absurd h (by simp)
    | ok p =>
      rw [hlin] at h
      injection h with h2
      have hp := linearize_frame d p hlin
      rw [← h2]
      exact hp
  · -- condensation
    intro d r h
    unfold condensation at h
    cases hsc : sccs d with
    | error e =>
      rw [hsc] at h
      exact absurd h (by simp)
    | ok p =>
      simp only [hsc] at h
      have hp : edges p.2 = edges d ∧ ∀ y ∈ vertices d, y ∈ vertices p.2 := by
        unfold sccs at hsc
        cases hlin : linearize d with
        | error e =>
          rw [hlin] at hsc
          exact absurd hsc (by simp)
        | ok p2 =>
          rw [hlin] at hsc
          injection hsc with h3
          have hp2 := linearize_frame d p2 hlin
          rw [← h3]
          exact hp2
      cases hce : contractEdges
          ((p.1.map (fun scc => scc.map (fun v2 => (v2, scc.toFinset)))).flatten)
          (edges p.2) with
      | none =>
        simp only [hce] at h
        exact absurd h (by simp)
      | some ces =>
        simp only [hce] at h
        injection h with h2
        rw [← h2]
        exact hp

/-- C9: transposing twice yields exactly the original edge set, for every
adjacency dict. -/
theorem c9_transpose_transpose_edge_set (d : Adj V) (e : V × V) :
    e ∈ edges (transpose (transpose d)) ↔ e ∈ edges d := by
  rw [mem_edges_transpose, mem_edges_transpose]

/-! Lemmas about association lists, the frontier set, walks and the
minimum extraction, used by the shortest-path verification. -/

theorem lookupA_isSome_iff_mem {α : Type} (l : List (V × α)) (v : V) :
    (lookupA l v).isSome ↔ v ∈ keysOf l := by
  induction l with
  | nil => simp [lookupA, keysOf]
  | cons p rest ih =>
    obtain ⟨k, a⟩ := p
    by_cases h : k = v <;> simp [lookupA, keysOf, h, ih] <;> tauto

theorem lookupA_eq_none_iff {α : Type} (l : List (V × α)) (v : V) :
    lookupA l v = none ↔ v ∉ keysOf l := by
  rw [← lookupA_isSome_iff_mem]
  cases lookupA l v <;> simp

theorem lookupA_mem_keys {α : Type} (l : List (V × α)) (v : V) (a : α)
    (h : lookupA l v = some a) : v ∈ keysOf l := by
  rw [← lookupA_isSome_iff_mem, h]
  rfl

theorem lookupA_assocSet_self {α : Type} (l : List (V × α)) (v : V) (a : α) :
    lookupA (assocSet l v a) v = some a := by
  induction l with
  | nil => simp [assocSet, lookupA]
  | cons p rest ih =>
    obtain ⟨k, b⟩ := p
    by_cases h : k = v <;> simp [assocSet, lookupA, h, ih]

theorem lookupA_assocSet_ne {α : Type} (l : List (V × α)) (v : V) (a : α) (x : V)
    (h : x ≠ v) : lookupA (assocSet l v a) x = lookupA l x := by
  have h2 : ¬ v = x := fun hh => h hh.symm
  induction l with
  | nil => simp [assocSet, lookupA, h2]
  | cons p rest ih =>
    obtain ⟨k, b⟩ := p
    by_cases hk : k = v
    · subst hk
      have h3 : ¬ k = x := h2
      simp [assocSet, lookupA, h3]
    · by_cases hx : k = x <;> simp [assocSet, lookupA, hk, hx, ih, h]

theorem keysOf_assocSet {α : Type} (l : List (V × α)) (v : V) (a : α) :
    keysOf (assocSet l v a) =
      if v ∈ keysOf l then keysOf l else keysOf l ++ [v] := by
  induction l with
  | nil => simp [assocSet, keysOf]
  | cons p rest ih =>
    obtain ⟨k, b⟩ := p
    by_cases hk : k = v
    · subst hk
      simp [assocSet, keysOf]
    · have hne : ¬ v = k := fun hh => hk hh.symm
      by_cases hv : v ∈ keysOf rest
      · simp only [keysOf] at ih hv
        simp [assocSet, keysOf, hk, hne, hv, ih]
      · simp only [keysOf] at ih hv
        simp [assocSet, keysOf, hk, hne, hv, ih]

theorem mem_setAdd (q : List V) (v x : V) : x ∈ setAdd q v ↔ x ∈ q ∨ x = v := by
  by_cases h : v ∈ q
  · simp only [setAdd, if_pos h]
    constructor
    · exact fun hx => Or.inl hx
    · rintro (hx | rfl)
      · exact hx
      · exact h
  · simp [setAdd, if_neg h]

theorem nodup_setAdd (q : List V) (v : V) (h : q.Nodup) : (setAdd q v).Nodup := by
  by_cases hv : v ∈ q
  · simpa [setAdd, if_pos hv] using h
  · simp [setAdd, if_neg hv, List.nodup_append, h, hv]

theorem stepsN_cons (es : List (V × V)) (u m v : V) (n : Nat)
    (h1 : edgeStep es u m) (h2 : stepsN es n m v) : stepsN es (n + 1) u v := by
  induction n generalizing v with
  | zero =>
    have hmv : m = v := h2
    exact ⟨u, rfl, hmv ▸ h1⟩
  | succ n ih =>
    obtain ⟨mid, hmid, hedge⟩ := h2
    exact ⟨mid, ih mid hmid, hedge⟩

theorem mreach_iff_stepsN (es : List (V × V)) (u v : V) :
    mreach es u v ↔ ∃ n, stepsN es n u v := by
  constructor
  · intro h
    induction h with
    | refl => exact ⟨0, rfl⟩
    | tail hr hstep ih =>
      obtain ⟨n, hn⟩ := ih
      exact ⟨n + 1, _, hn, hstep⟩
  · rintro ⟨n, hn⟩
    induction n generalizing v with
    | zero =>
      have huv : u = v := hn
      exact huv ▸ Relation.ReflTransGen.refl
    | succ n ih =>
      obtain ⟨m, hm, hedge⟩ := hn
      exact Relation.ReflTransGen.tail (ih m hm) hedge

theorem pathIn_stepsN (es : List (V × V)) (p : List V) :
    ∀ a b, p.head? = some a → p.getLast? = some b → List.Chain' (edgeStep es) p →
      stepsN es (p.length - 1) a b := by
  induction p with
  | nil => intro a b h1; simp at h1
  | cons x xs ih =>
    intro a b h1 h2 hch
    have hx : x = a := by simpa using h1
    subst hx
    cases xs with
    | nil =>
      have hb : x = b := by simpa using h2
      exact hb ▸ rfl
    | cons y ys =>
      rw [List.chain'_cons] at hch
      have h2' : (y :: ys).getLast? = some b := by
        rw [List.getLast?_cons_cons] at h2
        exact h2
      have hsub := ih y b (by simp) h2' hch.2
      have hlen : (x :: y :: ys).length - 1 = ((y :: ys).length - 1) + 1 := by
        simp
      rw [hlen]
      exact stepsN_cons es x y b _ hch.1 hsub

theorem argminD_mem (dist : List (V × Int)) (l : List V) (b : V) :
    argminD dist l b ∈ b :: l := by
  induction l generalizing b with
  | nil => simp [argminD]
  | cons v rest ih =>
    simp only [argminD]
    by_cases h : distOf dist v < distOf dist b
    · rw [if_pos h]
      have := ih v
      simp only [List.mem_cons] at this ⊢
      tauto
    · rw [if_neg h]
      have := ih b
      simp only [List.mem_cons] at this ⊢
      tauto

theorem argminD_le (dist : List (V × Int)) (l : List V) (b : V) :
    ∀ x ∈ b :: l, distOf dist (argminD dist l b) ≤ distOf dist x := by
  induction l generalizing b with
  | nil =>
    intro x hx
    have hxb : x = b := by simpa using hx
    subst hxb
    simp [argminD]
  | cons v rest ih =>
    intro x hx
    simp only [List.mem_cons] at hx
    simp only [argminD]
    by_cases h : distOf dist v < distOf dist b
    · rw [if_pos h]
      rcases hx with hxb | hxv | hx
      · rw [hxb]
        exact le_of_lt (lt_of_le_of_lt (ih v v (by simp)) h)
      · rw [hxv]
        exact ih v v (by simp)
      · exact ih v x (by simp [hx])
    · rw [if_neg h]
      rcases hx with hxb | hxv | hx
      · rw [hxb]
        exact ih b b (by simp)
      · rw [hxv]
        exact le_trans (ih b b (by simp)) (le_of_not_lt h)
      · exact ih b x (by simp [hx])

/-- Along any walk from the start, when every settled vertex is optimal
and fully relaxed, either some frontier vertex already has a tentative
distance at most the walk length, or the endpoint itself is settled with
distance at most the walk length. -/
theorem walk_frontier_bound (es : List (V × V)) (s : V) (st : SPState V)
    (hb : SPBase es s st) (hf : SPFrontier es st) :
    ∀ (m : Nat) (x : V), stepsN es m s x →
      (∃ q ∈ st.Q, ∃ kq : Int, lookupA st.dist q = some kq ∧ kq ≤ (m : Int)) ∨
      (x ∈ keysOf st.dist ∧ x ∉ st.Q ∧
        ∃ kx : Int, lookupA st.dist x = some kx ∧ kx ≤ (m : Int)) := by
  intro m
  induction m with
  | zero =>
    intro x hx
    have hxs : s = x := hx
    subst hxs
    by_cases hq : s ∈ st.Q
    · exact Or.inl ⟨s, hq, 0, hb.start_zero, by simp⟩
    · exact Or.inr ⟨hb.start_mem, hq, 0, hb.start_zero, by simp⟩
  | succ m ih =>
    intro x hx
    obtain ⟨y, hy, hedge⟩ := hx
    rcases ih y hy with ⟨q, hqQ, kq, hkq, hle⟩ | ⟨hyk, hynq, ky, hky, hle⟩
    · exact Or.inl ⟨q, hqQ, kq, hkq, by push_cast; omega⟩
    · obtain ⟨hxk, hrel⟩ := hf y hyk hynq x hedge
      obtain ⟨kx, hkx⟩ := Option.isSome_iff_exists.mp ((lookupA_isSome_iff_mem _ _).mpr hxk)
      have hbound : kx ≤ ky + 1 := hrel ky kx hky hkx
      by_cases hq : x ∈ st.Q
      · exact Or.inl ⟨x, hq, kx, hkx, by push_cast; omega⟩
      · exact Or.inr ⟨hxk, hq, kx, hkx, by push_cast; omega⟩

/-- When the whole invariant holds, the frontier vertex of minimum
tentative distance is optimal: its recorded distance is a lower bound on
the length of every walk from the start. -/
theorem extract_exact (es : List (V × V)) (s : V) (st : SPState V)
    (hb : SPBase es s st) (hf : SPFrontier es st)
    (u : V) (huQ : u ∈ st.Q)
    (hmin : ∀ q ∈ st.Q, distOf st.dist u ≤ distOf st.dist q)
    (ku : Int) (hku : lookupA st.dist u = some ku) :
    ∀ m : Nat, stepsN es m s u → ku ≤ (m : Int) := by
  intro m hm
  rcases walk_frontier_bound es s st hb hf m u hm with
    ⟨q, hqQ, kq, hkq, hle⟩ | ⟨_, hnq, kx, hkx, hle⟩
  · have h1 : distOf st.dist u ≤ distOf st.dist q := hmin q hqQ
    rw [distOf, hku, distOf, hkq] at h1
    simp only [Option.getD_some] at h1
    omega
  · exact absurd huQ hnq

/-- `buildPath` is monotone in its fuel once it succeeds. -/
theorem buildPath_mono (prev : List (V × Option V)) (f1 : Nat) :
    ∀ (f2 : Nat), f1 ≤ f2 → ∀ (v : V) (acc r : List V),
      buildPath prev f1 v acc = some r → buildPath prev f2 v acc = some r := by
  induction f1 with
  | zero =>
    intro f2 _ v acc r hr
    simp [buildPath] at hr
  | succ n ih =>
    intro f2 hf2 v acc r hr
    obtain ⟨m, rfl⟩ : ∃ m, f2 = m + 1 := ⟨f2 - 1, by omega⟩
    simp only [buildPath] at hr ⊢
    cases hlk : lookupA prev v with
    | none => rw [hlk] at hr; exact absurd hr (by simp)
    | some o =>
      rw [hlk] at hr
      cases o with
      | none => exact hr
      | some u2 => exact ih m (by omega) u2 (v :: acc) r hr

/-- Following the `prev` pointers from any recorded vertex of an invariant
state yields a directed path from the start to that vertex whose vertex
count is one more than the recorded distance; the vertices of the path
are pairwise distinct recorded vertices with distances bounded by the
endpoint's. -/
theorem buildPath_spec (es : List (V × V)) (s : V) (st : SPState V) (hb : SPBase es s st) :
    ∀ (kn : Nat) (v : V) (kv : Int), lookupA st.dist v = some kv → kv = (kn : Int) →
      ∀ acc : List V, ∃ p : List V,
        buildPath st.prev (kn + 1) v acc = some (p ++ acc) ∧
        p.head? = some s ∧ p.getLast? = some v ∧ List.Chain' (edgeStep es) p ∧
        p.length = kn + 1 ∧ p.Nodup ∧
        (∀ x ∈ p, ∃ kx : Int, lookupA st.dist x = some kx ∧ kx ≤ kv) := by
  intro kn
  induction kn with
  | zero =>
    intro v kv hkv hkv0 acc
    have hvk : v ∈ keysOf st.prev := by
      rw [hb.pk_eq]
      exact lookupA_mem_keys _ _ _ hkv
    obtain ⟨o, ho⟩ := Option.isSome_iff_exists.mp ((lookupA_isSome_iff_mem _ _).mpr hvk)
    cases o with
    | none =>
      have hvs : v = s := hb.prev_none v ho
      subst hvs
      refine ⟨[v], ?_, rfl, rfl, List.chain'_singleton v, rfl, List.nodup_singleton v, ?_⟩
      · simp [buildPath, ho]
      · intro x hx
        have hxv : x = v := by simpa using hx
        subst hxv
        exact ⟨kv, hkv, le_refl kv⟩
    | some u2 =>
      obtain ⟨-, -, -, ku2, kv2, hku2, hkv2, hrel⟩ := hb.prev_some v u2 ho
      obtain ⟨kun, hkun, -⟩ := hb.dist_nat u2 ku2 hku2
      rw [hkv] at hkv2
      injection hkv2 with h
      omega
  | succ kn ih =>
    intro v kv hkv hkvs acc
    have hvk : v ∈ keysOf st.prev := by
      rw [hb.pk_eq]
      exact lookupA_mem_keys _ _ _ hkv
    obtain ⟨o, ho⟩ := Option.isSome_iff_exists.mp ((lookupA_isSome_iff_mem _ _).mpr hvk)
    cases o with
    | none =>
      have hvs : v = s := hb.prev_none v ho
      subst hvs
      rw [hb.start_zero] at hkv
      injection hkv with h
      omega
    | some u2 =>
      obtain ⟨hedge, -, -, ku2, kv2, hku2, hkv2, hrel⟩ := hb.prev_some v u2 ho
      rw [hkv] at hkv2
      injection hkv2 with h
      subst h
      have hku2n : ku2 = (kn : Int) := by omega
      obtain ⟨p', hbp, hhead, hlast, hchain, hlen, hnd, hbound⟩ :=
        ih u2 ku2 hku2 hku2n (v :: acc)
      refine ⟨p' ++ [v], ?_, ?_, ?_, ?_, ?_, ?_, ?_⟩
      · have : buildPath st.prev (kn + 1 + 1) v acc = buildPath st.prev (kn + 1) u2 (v :: acc) := by
          simp [buildPath, ho]
        rw [this, hbp]
        simp
      · cases p' with
        | nil => simp at hhead
        | cons a as =>
          have : a = s := by simpa using hhead
          simp [this]
      · simp
      · rw [List.chain'_append]
        refine ⟨hchain, List.chain'_singleton v, ?_⟩
        intro x hx y hy
        rw [hlast] at hx
        have hx2 : x = u2 := by simpa [eq_comm] using hx
        have hy2 : y = v := by simpa [eq_comm] using hy
        rw [hx2, hy2]
        exact hedge
      · simp [hlen]
      · rw [List.nodup_append]
        refine ⟨hnd, List.nodup_singleton v, ?_⟩
        intro x hxp hxv
        have hxv2 : x = v := by simpa using hxv
        subst hxv2
        obtain ⟨kx, hkx, hkxle⟩ := hbound x hxp
        rw [hkv] at hkx
        injection hkx with h2
        omega
      · intro x hx
        rw [List.mem_append] at hx
        rcases hx with hx | hx
        · obtain ⟨kx, hkx, hkxle⟩ := hbound x hx
          exact ⟨kx, hkx, by omega⟩
        · have hxv : x = v := by simpa using hx
          subst hxv
          exact ⟨kv, hkv, le_refl kv⟩

/-- A single improving update of the relax phase (`v` either fresh or with
a strictly larger tentative distance) preserves the relax invariant,
records `ku + 1` for `v`, and leaves every settled vertex, its settledness
and its distance unchanged. -/
theorem relax_upd_inv (es : List (V × V)) (s u v : V) (ku : Int) (st : SPState V)
    (hi : RelaxInv es s u ku st) (hedge : edgeStep es u v)
    (hcase : lookupA st.dist v = none ∨
      ∃ dv : Int, lookupA st.dist v = some dv ∧ ku + 1 < dv) :
    RelaxInv es s u ku
      ⟨assocSet st.dist v (ku + 1), assocSet st.prev v (some u), setAdd st.Q v⟩ ∧
    lookupA (assocSet st.dist v (ku + 1)) v = some (ku + 1) ∧
    (∀ x, x ∈ keysOf st.dist → x ∉ st.Q →
      x ∈ keysOf (assocSet st.dist v (ku + 1)) ∧ x ∉ setAdd st.Q v ∧
      lookupA (assocSet st.dist v (ku + 1)) x = lookupA st.dist x) ∧
    (∀ x, x ∈ keysOf (assocSet st.dist v (ku + 1)) → x ∉ setAdd st.Q v →
      x ∈ keysOf st.dist ∧ x ∉ st.Q) ∧
    (∀ x kx, lookupA (assocSet st.dist v (ku + 1)) x = some kx →
      lookupA st.dist x = some kx ∨ kx = ku + 1) := by
  obtain ⟨kun, hkun, hkusteps⟩ := hi.base.dist_nat u ku hi.u_dist
  -- v is not settled: it is on the frontier or entirely fresh
  have hvns : v ∈ st.Q ∨ v ∉ keysOf st.dist := by
    rcases hcase with hnone | ⟨dv, hdv, hlt⟩
    · exact Or.inr ((lookupA_eq_none_iff _ _).mp hnone)
    · by_cases hq : v ∈ st.Q
      · exact Or.inl hq
      · have := hi.settled_le v (lookupA_mem_keys _ _ _ hdv) hq dv hdv
        omega
  have hvu : v ≠ u := by
    intro hh
    subst hh
    rcases hcase with hnone | ⟨dv, hdv, hlt⟩
    · rw [hi.u_dist] at hnone
      exact Option.noConfusion hnone
    · rw [hi.u_dist] at hdv
      injection hdv with hdv2
      omega
  have hvs : v ≠ s := by
    intro hh
    subst hh
    rcases hcase with hnone | ⟨dv, hdv, hlt⟩
    · rw [hi.base.start_zero] at hnone
      exact Option.noConfusion hnone
    · rw [hi.base.start_zero] at hdv
      injection hdv with hdv2
      omega
  have hlv : lookupA (assocSet st.dist v (ku + 1)) v = some (ku + 1) :=
    lookupA_assocSet_self _ _ _
  have hlx : ∀ x, x ≠ v → lookupA (assocSet st.dist v (ku + 1)) x = lookupA st.dist x :=
    fun x hx => lookupA_assocSet_ne _ _ _ _ hx
  have hpx : ∀ x, x ≠ v → lookupA (assocSet st.prev v (some u)) x = lookupA st.prev x :=
    fun x hx => lookupA_assocSet_ne _ _ _ _ hx
  have hks : keysOf (assocSet st.dist v (ku + 1)) =
      if v ∈ keysOf st.dist then keysOf st.dist else keysOf st.dist ++ [v] :=
    keysOf_assocSet _ _ _
  have hsub : keysOf st.dist ⊆ keysOf (assocSet st.dist v (ku + 1)) := by
    rw [hks]
    by_cases h : v ∈ keysOf st.dist
    · rw [if_pos h]
      exact fun _ hx => hx
    · rw [if_neg h]
      exact fun _ hx => List.mem_append_left _ hx
  have hmem2 : ∀ x, x ∈ keysOf (assocSet st.dist v (ku + 1)) →
      x = v ∨ x ∈ keysOf st.dist := by
    intro x hx
    rw [hks] at hx
    by_cases h : v ∈ keysOf st.dist
    · rw [if_pos h] at hx
      exact Or.inr hx
    · rw [if_neg h] at hx
      rcases List.mem_append.mp hx with hx | hx
      · exact Or.inr hx
      · exact Or.inl (by simpa using hx)
  have hvQ2 : v ∈ setAdd st.Q v := (mem_setAdd _ _ _).mpr (Or.inr rfl)
  have hnotQ2 : ∀ x, x ∉ st.Q → x ≠ v → x ∉ setAdd st.Q v := by
    intro x hx hxv hmem
    rcases (mem_setAdd _ _ _).mp hmem with h | h
    · exact hx h
    · exact hxv h
  -- settled vertices of the updated state are exactly the old settled ones
  have hset2old : ∀ x, x ∈ keysOf (assocSet st.dist v (ku + 1)) → x ∉ setAdd st.Q v →
      x ∈ keysOf st.dist ∧ x ∉ st.Q ∧ x ≠ v := by
    intro x hx hq
    have hxv : x ≠ v := fun hh => hq (hh ▸ hvQ2)
    rcases hmem2 x hx with h | h
    · exact absurd h hxv
    · exact ⟨h, fun hh => hq ((mem_setAdd _ _ _).mpr (Or.inl hh)), hxv⟩
  have holdset : ∀ x, x ∈ keysOf st.dist → x ∉ st.Q →
      x ∈ keysOf (assocSet st.dist v (ku + 1)) ∧ x ∉ setAdd st.Q v ∧
      lookupA (assocSet st.dist v (ku + 1)) x = lookupA st.dist x := by
    intro x hx hq
    have hxv : x ≠ v := by
      rcases hvns with h | h
      · intro hh; exact hq (hh ▸ h)
      · intro hh; exact h (hh ▸ hx)
    exact ⟨hsub hx, hnotQ2 x hq hxv, hlx x hxv⟩
  have hfive : ∀ x kx, lookupA (assocSet st.dist v (ku + 1)) x = some kx →
      lookupA st.dist x = some kx ∨ kx = ku + 1 := by
    intro x kx hx
    by_cases hxv : x = v
    · subst hxv
      rw [hlv] at hx
      injection hx with h
      exact Or.inr h.symm
    · rw [hlx x hxv] at hx
      exact Or.inl hx
  refine ⟨⟨⟨?_, ?_, ?_, ?_, ?_, ?_, ?_, ?_, ?_, ?_, ?_, ?_⟩, ?_, ?_, ?_, ?_, ?_, ?_⟩,
    hlv, holdset, fun x hx hq => ⟨(hset2old x hx hq).1, (hset2old x hx hq).2.1⟩, hfive⟩
  · -- dk_nodup
    rw [hks]
    by_cases h : v ∈ keysOf st.dist
    · rw [if_pos h]; exact hi.base.dk_nodup
    · rw [if_neg h]
      simp [List.nodup_append, hi.base.dk_nodup, h]
  · -- pk_eq
    rw [hks, keysOf_assocSet, hi.base.pk_eq]
  · -- q_sub
    intro x hx
    rcases (mem_setAdd _ _ _).mp hx with h | h
    · exact hsub (hi.base.q_sub x h)
    · subst h
      exact lookupA_mem_keys _ _ _ hlv
  · -- q_nodup
    exact nodup_setAdd _ _ hi.base.q_nodup
  · -- start_mem
    exact hsub hi.base.start_mem
  · -- start_zero
    rw [hlx s (fun hh => hvs hh.symm)]
    exact hi.base.start_zero
  · -- keys_ok
    intro x hx
    rcases hmem2 x hx with h | h
    · subst h
      exact Or.inr ⟨u, hedge⟩
    · exact hi.base.keys_ok x h
  · -- dist_nat
    intro x kx hx
    by_cases hxv : x = v
    · subst hxv
      rw [hlv] at hx
      injection hx with h
      refine ⟨kun + 1, by omega, ?_⟩
      exact ⟨u, hkusteps, hedge⟩
    · rw [hlx x hxv] at hx
      exact hi.base.dist_nat x kx hx
  · -- prev_none
    intro x hx
    by_cases hxv : x = v
    · subst hxv
      rw [lookupA_assocSet_self] at hx
      exact absurd hx (by simp)
    · rw [hpx x hxv] at hx
      exact hi.base.prev_none x hx
  · -- prev_some
    intro x u2 hx
    by_cases hxv : x = v
    · subst hxv
      rw [lookupA_assocSet_self] at hx
      injection hx with h
      injection h with h2
      rw [← h2]
      refine ⟨hedge, hsub hi.u_mem, hnotQ2 u hi.u_nq (fun hh => hvu hh.symm), ku, ku + 1,
        ?_, hlv, rfl⟩
      rw [hlx u (fun hh => hvu hh.symm)]
      exact hi.u_dist
    · rw [hpx x hxv] at hx
      obtain ⟨he, hu2m, hu2q, ku2, kv2, hku2, hkv2, hrel⟩ := hi.base.prev_some x u2 hx
      have hu2v : u2 ≠ v := by
        rcases hvns with h | h
        · intro hh; exact hu2q (hh ▸ h)
        · intro hh; exact h (hh ▸ hu2m)
      refine ⟨he, hsub hu2m, hnotQ2 u2 hu2q hu2v, ku2, kv2, ?_, ?_, hrel⟩
      · rw [hlx u2 hu2v]; exact hku2
      · rw [hlx x hxv]; exact hkv2
  · -- settled_min
    intro x hx hq q hqm kx kq hkx hkq
    obtain ⟨hxm, hxq, hxv⟩ := hset2old x hx hq
    rw [hlx x hxv] at hkx
    by_cases hqv : q = v
    · subst hqv
      rw [hlv] at hkq
      injection hkq with h
      have := hi.settled_le x hxm hxq kx hkx
      omega
    · rw [hlx q hqv] at hkq
      rcases (mem_setAdd _ _ _).mp hqm with h | h
      · exact hi.base.settled_min x hxm hxq q h kx kq hkx hkq
      · exact absurd h hqv
  · -- settled_exact
    intro x hx hq kx hkx m hm
    obtain ⟨hxm, hxq, hxv⟩ := hset2old x hx hq
    rw [hlx x hxv] at hkx
    exact hi.base.settled_exact x hxm hxq kx hkx m hm
  · -- u_mem
    exact hsub hi.u_mem
  · -- u_nq
    exact hnotQ2 u hi.u_nq (fun hh => hvu hh.symm)
  · -- u_dist
    rw [hlx u (fun hh => hvu hh.symm)]
    exact hi.u_dist
  · -- settled_le
    intro x hx hq kx hkx
    obtain ⟨hxm, hxq, hxv⟩ := hset2old x hx hq
    rw [hlx x hxv] at hkx
    exact hi.settled_le x hxm hxq kx hkx
  · -- q_ge
    intro q hqm kq hkq
    by_cases hqv : q = v
    · subst hqv
      rw [hlv] at hkq
      injection hkq with h
      omega
    · rw [hlx q hqv] at hkq
      rcases (mem_setAdd _ _ _).mp hqm with h | h
      · exact hi.q_ge q h kq hkq
      · exact absurd h hqv
  · -- front_except
    intro x hx hq hxu v2 he2
    obtain ⟨hxm, hxq, hxv⟩ := hset2old x hx hq
    obtain ⟨hv2m, hbound⟩ := hi.front_except x hxm hxq hxu v2 he2
    refine ⟨hsub hv2m, ?_⟩
    intro kx kv hkx hkv
    rw [hlx x hxv] at hkx
    by_cases hv2v : v2 = v
    · subst hv2v
      rw [hlv] at hkv
      injection hkv with h
      rcases hcase with hnone | ⟨dv, hdv, hlt⟩
      · exact absurd hv2m ((lookupA_eq_none_iff _ _).mp hnone)
      · have := hbound kx dv hkx hdv
        omega
    · rw [hlx v2 hv2v] at hkv
      exact hbound kx kv hkx hkv

/-- Unfolding equation for one step of the relax phase. -/
theorem relaxAll_cons (w : V × V → Int) (u v : V) (rest : List V) (st : SPState V) :
    relaxAll w u (v :: rest) st =
      (if (match lookupA st.dist v with
           | none => true
           | some dv => decide (distOf st.dist u + w (u, v) < dv)) then
        relaxAll w u rest
          ⟨assocSet st.dist v (distOf st.dist u + w (u, v)),
           assocSet st.prev v (some u), setAdd st.Q v⟩
      else relaxAll w u rest st) := rfl

/-- Step equation: relaxing a successor with no recorded distance. -/
theorem relaxAll_cons_none (w : V × V → Int) (u v : V) (rest : List V) (st : SPState V)
    (h : lookupA st.dist v = none) :
    relaxAll w u (v :: rest) st =
      relaxAll w u rest
        ⟨assocSet st.dist v (distOf st.dist u + w (u, v)),
         assocSet st.prev v (some u), setAdd st.Q v⟩ := by
  rw [relaxAll_cons, h]
  rfl

/-- Step equation: relaxing a successor whose distance strictly improves. -/
theorem relaxAll_cons_lt (w : V × V → Int) (u v : V) (rest : List V) (st : SPState V)
    (dv : Int) (h : lookupA st.dist v = some dv) (hlt : distOf st.dist u + w (u, v) < dv) :
    relaxAll w u (v :: rest) st =
      relaxAll w u rest
        ⟨assocSet st.dist v (distOf st.dist u + w (u, v)),
         assocSet st.prev v (some u), setAdd st.Q v⟩ := by
  rw [relaxAll_cons, h, if_pos (decide_eq_true hlt)]

/-- Step equation: relaxing a successor that does not improve. -/
theorem relaxAll_cons_ge (w : V × V → Int) (u v : V) (rest : List V) (st : SPState V)
    (dv : Int) (h : lookupA st.dist v = some dv) (hge : ¬ distOf st.dist u + w (u, v) < dv) :
    relaxAll w u (v :: rest) st = relaxAll w u rest st := by
  rw [relaxAll_cons, h, if_neg (by simpa using hge)]

/-- Relaxing a list of successors of the freshly extracted vertex `u`
(with unit weights) preserves `SPBase`, restores the full frontier
property once every successor of `u` is covered, and leaves every settled
vertex settled with an unchanged distance; conversely it creates no new
settled vertex. -/
theorem relaxAll_preserves (es : List (V × V)) (s u : V) (ku : Int) :
    ∀ (ns : List V) (st : SPState V), RelaxInv es s u ku st →
      (∀ v ∈ ns, edgeStep es u v) →
      (∀ v, edgeStep es u v → v ∉ ns →
        v ∈ keysOf st.dist ∧ ∀ kv : Int, lookupA st.dist v = some kv → kv ≤ ku + 1) →
      SPBase es s (relaxAll (fun _ => (1 : Int)) u ns st) ∧
      SPFrontier es (relaxAll (fun _ => (1 : Int)) u ns st) ∧
      (∀ x, x ∈ keysOf st.dist → x ∉ st.Q →
        x ∈ keysOf (relaxAll (fun _ => (1 : Int)) u ns st).dist ∧
        x ∉ (relaxAll (fun _ => (1 : Int)) u ns st).Q ∧
        lookupA (relaxAll (fun _ => (1 : Int)) u ns st).dist x = lookupA st.dist x) ∧
      (∀ x, x ∈ keysOf (relaxAll (fun _ => (1 : Int)) u ns st).dist →
        x ∉ (relaxAll (fun _ => (1 : Int)) u ns st).Q →
        x ∈ keysOf st.dist ∧ x ∉ st.Q) := by
  intro ns
  induction ns with
  | nil =>
    intro st hi hns hfu
    refine ⟨hi.base, ?_, fun x hx hq => ⟨hx, hq, rfl⟩, fun x hx hq => ⟨hx, hq⟩⟩
    show SPFrontier es st
    intro x hx hq v2 he2
    by_cases hxu : x = u
    · subst hxu
      obtain ⟨hv2m, hb⟩ := hfu v2 he2 (by simp)
      refine ⟨hv2m, ?_⟩
      intro kx kv hkx hkv
      rw [hi.u_dist] at hkx
      injection hkx with h
      have := hb kv hkv
      omega
    · exact hi.front_except x hx hq hxu v2 he2
  | cons v rest ih =>
    intro st hi hns hfu
    have hedge : edgeStep es u v := hns v (by simp)
    have halt : distOf st.dist u + (1 : Int) = ku + 1 := by
      simp [distOf, hi.u_dist]
    cases hlv : lookupA st.dist v with
    | none =>
      rw [relaxAll_cons_none (fun _ => (1 : Int)) u v rest st hlv, halt]
      obtain ⟨hi2, hlv2, hset3, hset4, hfive⟩ :=
        relax_upd_inv es s u v ku st hi hedge (Or.inl hlv)
      have hfu2 : ∀ v2, edgeStep es u v2 → v2 ∉ rest →
          v2 ∈ keysOf (assocSet st.dist v (ku + 1)) ∧
          ∀ kv : Int, lookupA (assocSet st.dist v (ku + 1)) v2 = some kv → kv ≤ ku + 1 := by
        intro v2 he2 hv2r
        by_cases hv2v : v2 = v
        · subst hv2v
          refine ⟨lookupA_mem_keys _ _ _ hlv2, ?_⟩
          intro kv hkv
          rw [hlv2] at hkv
          injection hkv with h
          omega
        · have hv2old := hfu v2 he2 (by simp [hv2r, hv2v])
          refine ⟨?_, ?_⟩
          · rw [← lookupA_isSome_iff_mem, lookupA_assocSet_ne _ _ _ _ hv2v,
              lookupA_isSome_iff_mem]
            exact hv2old.1
          · intro kv hkv
            rw [lookupA_assocSet_ne _ _ _ _ hv2v] at hkv
            exact hv2old.2 kv hkv
      obtain ⟨hbR, hfR, h3R, h4R⟩ := ih _ hi2 (fun x hx => hns x (by simp [hx])) hfu2
      refine ⟨hbR, hfR, ?_, ?_⟩
      · intro x hx hq
        obtain ⟨hm2, hq2, hl2⟩ := hset3 x hx hq
        obtain ⟨hmR, hqR, hlR⟩ := h3R x hm2 hq2
        exact ⟨hmR, hqR, hlR.trans hl2⟩
      · intro x hx hq
        obtain ⟨hm2, hq2⟩ := h4R x hx hq
        exact hset4 x hm2 hq2
    | some dv =>
      by_cases hcmp : distOf st.dist u + (1 : Int) < dv
      · rw [relaxAll_cons_lt (fun _ => (1 : Int)) u v rest st dv hlv hcmp, halt]
        have hcmp2 : ku + 1 < dv := by rw [halt] at hcmp; exact hcmp
        obtain ⟨hi2, hlv2, hset3, hset4, hfive⟩ :=
          relax_upd_inv es s u v ku st hi hedge (Or.inr ⟨dv, hlv, hcmp2⟩)
        have hfu2 : ∀ v2, edgeStep es u v2 → v2 ∉ rest →
            v2 ∈ keysOf (assocSet st.dist v (ku + 1)) ∧
            ∀ kv : Int, lookupA (assocSet st.dist v (ku + 1)) v2 = some kv → kv ≤ ku + 1 := by
          intro v2 he2 hv2r
          by_cases hv2v : v2 = v
          · subst hv2v
            refine ⟨lookupA_mem_keys _ _ _ hlv2, ?_⟩
            intro kv hkv
            rw [hlv2] at hkv
            injection hkv with h
            omega
          · have hv2old := hfu v2 he2 (by simp [hv2r, hv2v])
            refine ⟨?_, ?_⟩
            · rw [← lookupA_isSome_iff_mem, lookupA_assocSet_ne _ _ _ _ hv2v,
                lookupA_isSome_iff_mem]
              exact hv2old.1
            · intro kv hkv
              rw [lookupA_assocSet_ne _ _ _ _ hv2v] at hkv
              exact hv2old.2 kv hkv
        obtain ⟨hbR, hfR, h3R, h4R⟩ := ih _ hi2 (fun x hx => hns x (by simp [hx])) hfu2
        refine ⟨hbR, hfR, ?_, ?_⟩
        · intro x hx hq
          obtain ⟨hm2, hq2, hl2⟩ := hset3 x hx hq
          obtain ⟨hmR, hqR, hlR⟩ := h3R x hm2 hq2
          exact ⟨hmR, hqR, hlR.trans hl2⟩
        · intro x hx hq
          obtain ⟨hm2, hq2⟩ := h4R x hx hq
          exact hset4 x hm2 hq2
      · rw [relaxAll_cons_ge (fun _ => (1 : Int)) u v rest st dv hlv hcmp]
        refine ih _ hi (fun x hx => hns x (by simp [hx])) ?_
        intro v2 he2 hv2r
        by_cases hv2v : v2 = v
        · subst hv2v
          refine ⟨lookupA_mem_keys _ _ _ hlv, ?_⟩
          intro kv hkv
          rw [hlv] at hkv
          injection hkv with h
          rw [halt] at hcmp
          omega
        · exact hfu v2 he2 (by simp [hv2r, hv2v])

theorem mem_settledL (st : SPState V) (x : V) :
    x ∈ settledL st ↔ x ∈ keysOf st.dist ∧ x ∉ st.Q := by
  simp [settledL, List.mem_filter]

/-- The settled set never exceeds the start vertex plus the edge targets
of the graph, hence is bounded by one plus the number of stored edges. -/
theorem settledL_length_le (es : List (V × V)) (s : V) (st : SPState V)
    (hb : SPBase es s st) :
    (settledL st).length ≤ 1 + (edges (ofEdges es)).length := by
  have hnd : (settledL st).Nodup := hb.dk_nodup.filter _
  have hsub : settledL st ⊆ s :: (edges (ofEdges es)).map Prod.snd := by
    intro x hx
    obtain ⟨hxk, -⟩ := (mem_settledL st x).mp hx
    rcases hb.keys_ok x hxk with h | ⟨u, hu⟩
    · simp [h]
    · have : (u, x) ∈ edges (ofEdges es) := (mem_edges_ofEdges es (u, x)).mpr hu
      exact List.mem_cons_of_mem _ (List.mem_map.mpr ⟨(u, x), this, rfl⟩)
  have hle := (hnd.subperm hsub).length_le
  simp only [List.length_cons, List.length_map] at hle
  omega

/-- Unfolding equation for one iteration of the `shortest_path` loop. -/
theorem spLoop_succ (g : Adj V) (w : V × V → Int) (t : V) (fuel : Nat) (st : SPState V) :
    spLoop g w t (fuel + 1) st =
      (match st.Q with
      | [] => some st
      | q0 :: qrest =>
        let u := argminD st.dist qrest q0
        let st1 : SPState V := ⟨st.dist, st.prev, st.Q.erase u⟩
        if u = t then some st1
        else spLoop g w t fuel (relaxAll w u (dictGet g u).1 st1)) := rfl

/-- Iteration equation when the frontier is empty. -/
theorem spLoop_succ_nil (g : Adj V) (w : V × V → Int) (t : V) (fuel : Nat)
    (st : SPState V) (h : st.Q = []) : spLoop g w t (fuel + 1) st = some st := by
  rw [spLoop_succ, h]

/-- Iteration equation when the frontier is nonempty. -/
theorem spLoop_succ_cons (g : Adj V) (w : V × V → Int) (t : V) (fuel : Nat)
    (st : SPState V) (q0 : V) (qrest : List V) (h : st.Q = q0 :: qrest) :
    spLoop g w t (fuel + 1) st =
      (if argminD st.dist qrest q0 = t then
        some ⟨st.dist, st.prev, (q0 :: qrest).erase (argminD st.dist qrest q0)⟩
      else spLoop g w t fuel
        (relaxAll w (argminD st.dist qrest q0)
          (dictGet g (argminD st.dist qrest q0)).1
          ⟨st.dist, st.prev, (q0 :: qrest).erase (argminD st.dist qrest q0)⟩)) := by
  rw [spLoop_succ, h]

/-- Master lemma for the `shortest_path` loop with unit weights: from any
invariant state with sufficient fuel the loop returns a state that still
satisfies `SPBase` and either has the target settled (early break) or has
an empty frontier with the frontier property intact. -/
theorem spLoop_final (es : List (V × V)) (s t : V) :
    ∀ (fuel : Nat) (st : SPState V), SPBase es s st → SPFrontier es st →
      2 + (edges (ofEdges es)).length ≤ fuel + (settledL st).length →
      ∃ st', spLoop (ofEdges es) (fun _ => (1 : Int)) t fuel st = some st' ∧
        SPBase es s st' ∧
        ((t ∈ keysOf st'.dist ∧ t ∉ st'.Q) ∨ (st'.Q = [] ∧ SPFrontier es st')) := by
  intro fuel
  induction fuel with
  | zero =>
    intro st hb hf hmeas
    have := settledL_length_le es s st hb
    omega
  | succ fuel ih =>
    intro st hb hf hmeas
    cases hQ : st.Q with
    | nil =>
      exact ⟨st, spLoop_succ_nil _ _ _ _ _ hQ, hb, Or.inr ⟨hQ, hf⟩⟩
    | cons q0 qrest =>
      have humem : argminD st.dist qrest q0 ∈ st.Q := by
        rw [hQ]
        exact argminD_mem st.dist qrest q0
      set u := argminD st.dist qrest q0 with hu_def
      have hukeys : u ∈ keysOf st.dist := hb.q_sub u humem
      obtain ⟨ku, hku⟩ := Option.isSome_iff_exists.mp ((lookupA_isSome_iff_mem _ _).mpr hukeys)
      have hmin : ∀ q ∈ st.Q, ∀ kq : Int, lookupA st.dist q = some kq → ku ≤ kq := by
        intro q hq kq hkq
        have h1 : distOf st.dist u ≤ distOf st.dist q := by
          rw [hu_def]
          exact argminD_le st.dist qrest q0 q (hQ ▸ hq)
        rw [distOf, hku, distOf, hkq] at h1
        simpa using h1
      have hex : ∀ m : Nat, stepsN es m s u → ku ≤ (m : Int) := by
        refine extract_exact es s st hb hf u humem ?_ ku hku
        intro q hq
        rw [hu_def]
        exact argminD_le st.dist qrest q0 q (hQ ▸ hq)
      have hUQ : u ∉ st.Q.erase u := fun hmem =>
        (List.Nodup.mem_erase_iff hb.q_nodup).mp hmem |>.1 rfl
      have hEQsub : ∀ x, x ∈ st.Q.erase u → x ∈ st.Q := fun x hx =>
        List.mem_of_mem_erase hx
      have hsettled1 : ∀ x, x ∈ keysOf st.dist → x ∉ st.Q.erase u →
          (x ∉ st.Q ∨ x = u) := by
        intro x hxk hxe
        by_cases hxq : x ∈ st.Q
        · right
          by_contra hxu
          exact hxe ((List.Nodup.mem_erase_iff hb.q_nodup).mpr ⟨hxu, hxq⟩)
        · exact Or.inl hxq
      -- the post-extraction state satisfies the invariant
      have hb1 : SPBase es s ⟨st.dist, st.prev, st.Q.erase u⟩ := by
        refine ⟨hb.dk_nodup, hb.pk_eq, ?_, hb.q_nodup.erase u, hb.start_mem, hb.start_zero,
          hb.keys_ok, hb.dist_nat, hb.prev_none, ?_, ?_, ?_⟩
        · exact fun v hv => hb.q_sub v (hEQsub v hv)
        · intro v u2 hv
          obtain ⟨he, hm, hq, rest⟩ := hb.prev_some v u2 hv
          exact ⟨he, hm, fun hc => hq (hEQsub u2 hc), rest⟩
        · intro x hxk hxe q hq kx kq hkx hkq
          rcases hsettled1 x hxk hxe with hxq | rfl
          · exact hb.settled_min x hxk hxq q (hEQsub q hq) kx kq hkx hkq
          · rw [hku] at hkx
            injection hkx with h
            subst h
            exact hmin q (hEQsub q hq) kq hkq
        · intro x hxk hxe kx hkx m hm
          rcases hsettled1 x hxk hxe with hxq | rfl
          · exact hb.settled_exact x hxk hxq kx hkx m hm
          · rw [hku] at hkx
            injection hkx with h
            subst h
            exact hex m hm
      by_cases hut : u = t
      · refine ⟨⟨st.dist, st.prev, (q0 :: qrest).erase u⟩, ?_, ?_, ?_⟩
        · rw [spLoop_succ_cons _ _ _ _ _ q0 qrest hQ, ← hu_def, if_pos hut]
        · rw [← hQ]
          exact hb1
        · rw [← hut]
          exact Or.inl ⟨hukeys, hQ ▸ hUQ⟩
      · -- build the relax invariant and recurse
        have hi1 : RelaxInv es s u ku ⟨st.dist, st.prev, st.Q.erase u⟩ := by
          refine ⟨hb1, hukeys, hUQ, hku, ?_, ?_, ?_⟩
          · intro x hxk hxe kx hkx
            rcases hsettled1 x hxk hxe with hxq | rfl
            · exact hb.settled_min x hxk hxq u humem kx ku hkx hku
            · rw [hku] at hkx
              injection hkx with h
              omega
          · exact fun q hq kq hkq => hmin q (hEQsub q hq) kq hkq
          · intro x hxk hxe hxu v2 he2
            rcases hsettled1 x hxk hxe with hxq | rfl
            · exact hf x hxk hxq v2 he2
            · exact absurd rfl hxu
        have hns : ∀ v ∈ (dictGet (ofEdges es) u).1, edgeStep es u v := by
          intro v hv
          rw [dictGet_fst] at hv
          exact (mem_adj_ofEdges es u v).mp hv
        have hfu0 : ∀ v, edgeStep es u v → v ∉ (dictGet (ofEdges es) u).1 →
            v ∈ keysOf (⟨st.dist, st.prev, st.Q.erase u⟩ : SPState V).dist ∧
            ∀ kv : Int,
              lookupA (⟨st.dist, st.prev, st.Q.erase u⟩ : SPState V).dist v = some kv →
                kv ≤ ku + 1 := by
          intro v hv hnv
          exfalso
          apply hnv
          rw [dictGet_fst]
          exact (mem_adj_ofEdges es u v).mpr hv
        obtain ⟨hb2, hf2, h3, h4⟩ :=
          relaxAll_preserves es s u ku (dictGet (ofEdges es) u).1
            ⟨st.dist, st.prev, st.Q.erase u⟩ hi1 hns hfu0
        set st2 := relaxAll (fun _ => (1 : Int)) u (dictGet (ofEdges es) u).1
          ⟨st.dist, st.prev, st.Q.erase u⟩ with hst2_def
        have hgrow : (settledL st).length + 1 ≤ (settledL st2).length := by
          have hnd2 : (u :: settledL st).Nodup := by
            rw [List.nodup_cons]
            refine ⟨?_, hb.dk_nodup.filter _⟩
            intro hc
            exact ((mem_settledL st u).mp hc).2 humem
          have hsub2 : (u :: settledL st) ⊆ settledL st2 := by
            intro x hx
            rcases List.mem_cons.mp hx with rfl | hx
            · obtain ⟨hm, hq, -⟩ := h3 u hukeys hUQ
              exact (mem_settledL st2 u).mpr ⟨hm, hq⟩
            · obtain ⟨hxk, hxq⟩ := (mem_settledL st x).mp hx
              obtain ⟨hm, hq, -⟩ := h3 x hxk (fun hc => hxq (hEQsub x hc))
              exact (mem_settledL st2 x).mpr ⟨hm, hq⟩
          have hle := (hnd2.subperm hsub2).length_le
          simpa using hle
        obtain ⟨st', hrun, hb', hpost⟩ := ih st2 hb2 hf2 (by omega)
        refine ⟨st', ?_, hb', hpost⟩
        rw [spLoop_succ_cons _ _ _ _ _ q0 qrest hQ, ← hu_def, if_neg hut, ← hQ]
        exact hrun

/-- At natural termination (empty frontier) every vertex reachable from
the start has a recorded distance. -/
theorem reach_in_keys (es : List (V × V)) (s : V) (st : SPState V)
    (hb : SPBase es s st) (hf : SPFrontier es st) (hQ : st.Q = []) :
    ∀ (m : Nat) (x : V), stepsN es m s x → x ∈ keysOf st.dist := by
  intro m
  induction m with
  | zero =>
    intro x hx
    exact (show s = x from hx) ▸ hb.start_mem
  | succ m ih =>
    intro x hx
    obtain ⟨y, hy, hedge⟩ := hx
    have hyk := ih y hy
    have hynq : y ∉ st.Q := by rw [hQ]; simp
    exact (hf y hyk hynq x hedge).1

/-- The initial `shortest_path` state satisfies the loop invariant. -/
theorem spInit_base (es : List (V × V)) (s : V) :
    SPBase es s ⟨[(s, 0)], [(s, none)], [s]⟩ := by
  refine ⟨?_, ?_, ?_, ?_, ?_, ?_, ?_, ?_, ?_, ?_, ?_, ?_⟩
  · simp [keysOf]
  · simp [keysOf]
  · simp [keysOf]
  · simp
  · simp [keysOf]
  · simp [lookupA]
  · intro v hv
    simp only [keysOf, List.map_cons, List.map_nil, List.mem_singleton] at hv
    exact Or.inl hv
  · intro v k h
    simp only [lookupA] at h
    by_cases hv : s = v
    · subst hv
      rw [if_pos rfl] at h
      injection h with h2
      exact ⟨0, by omega, rfl⟩
    · rw [if_neg hv] at h
      exact absurd h (by simp)
  · intro v h
    simp only [lookupA] at h
    by_cases hv : s = v
    · exact hv.symm
    · rw [if_neg hv] at h
      exact absurd h (by simp)
  · intro v u h
    simp only [lookupA] at h
    by_cases hv : s = v
    · rw [if_pos hv] at h
      injection h with h2
      exact absurd h2 (by simp)
    · rw [if_neg hv] at h
      exact absurd h (by simp)
  · intro x hx hq
    simp only [keysOf, List.map_cons, List.map_nil, List.mem_singleton] at hx
    exact absurd (by simp [hx]) hq
  · intro x hx hq
    simp only [keysOf, List.map_cons, List.map_nil, List.mem_singleton] at hx
    exact absurd (by simp [hx]) hq

/-- The initial `shortest_path` state has no settled vertex, so the
frontier property holds vacuously. -/
theorem spInit_frontier (es : List (V × V)) (s : V) :
    SPFrontier es ⟨[(s, 0)], [(s, none)], [s]⟩ := by
  intro x hx hq
  simp only [keysOf, List.map_cons, List.map_nil, List.mem_singleton] at hx
  exact absurd (by simp [hx]) hq

/-- C7: with the default unit weight function, `shortest_path(s, t)` on
any graph terminates and (i) returns the Python `None` exactly when `t`
is unreachable from `s`; (ii) whenever it returns a path, that path is a
directed path from `s` to `t` in the graph and no directed path from `s`
to `t` has fewer vertices, i.e. its length realises the breadth-first
(minimum-hop) shortest-path distance. -/
theorem c7_shortest_path_unit_is_bfs (es : List (V × V)) (s t : V) :
    shortest_path (ofEdges es) s t (fun _ => (1 : Int)) ≠ none ∧
    (shortest_path (ofEdges es) s t (fun _ => (1 : Int)) = some none ↔ ¬ mreach es s t) ∧
    (∀ p, shortest_path (ofEdges es) s t (fun _ => (1 : Int)) = some (some p) →
      pathIn es s t p ∧ ∀ q, pathIn es s t q → p.length ≤ q.length) := by
  have hmeas : 2 + (edges (ofEdges es)).length ≤
      ((ofEdges es).length + (edges (ofEdges es)).length + 2) +
        (settledL (⟨[(s, 0)], [(s, none)], [s]⟩ : SPState V)).length := by
    omega
  obtain ⟨st', hrun, hb', hpost⟩ :=
    spLoop_final es s t ((ofEdges es).length + (edges (ofEdges es)).length + 2)
      ⟨[(s, 0)], [(s, none)], [s]⟩ (spInit_base es s) (spInit_frontier es s) hmeas
  have hsp : shortest_path (ofEdges es) s t (fun _ => (1 : Int)) =
      (match lookupA st'.prev t with
      | none => some none
      | some _ =>
        match buildPath st'.prev (st'.prev.length + 1) t [] with
        | none => none
        | some p => some (some p)) := by
    rw [shortest_path, hrun]
  cases hpt : lookupA st'.prev t with
  | none =>
    have htk : t ∉ keysOf st'.dist := by
      rw [← hb'.pk_eq]
      exact (lookupA_eq_none_iff _ _).mp hpt
    have hnr : ¬ mreach es s t := by
      intro hr
      obtain ⟨m, hm⟩ := (mreach_iff_stepsN es s t).mp hr
      rcases hpost with ⟨htk2, -⟩ | ⟨hQnil, hf'⟩
      · exact htk htk2
      · exact htk (reach_in_keys es s st' hb' hf' hQnil m t hm)
    rw [hsp, hpt]
    refine ⟨by simp, by simp [hnr], ?_⟩
    intro p hp
    exact absurd hp (by simp)
  | some o =>
    have htk : t ∈ keysOf st'.dist := by
      rw [← hb'.pk_eq]
      exact lookupA_mem_keys _ _ _ hpt
    have htq : t ∉ st'.Q := by
      rcases hpost with ⟨-, h⟩ | ⟨hQnil, -⟩
      · exact h
      · rw [hQnil]
        simp
    obtain ⟨kt, hkt⟩ := Option.isSome_iff_exists.mp ((lookupA_isSome_iff_mem _ _).mpr htk)
    obtain ⟨ktn, hktn, hsteps⟩ := hb'.dist_nat t kt hkt
    have hreach : mreach es s t := (mreach_iff_stepsN es s t).mpr ⟨ktn, hsteps⟩
    obtain ⟨p0, hbp, hhead, hlast, hchain, hplen, hpnd, hpbound⟩ :=
      buildPath_spec es s st' hb' ktn t kt hkt hktn []
    rw [List.append_nil] at hbp
    -- the path consists of distinct recorded vertices, so its length is
    -- bounded by the table size and the wrapper's fuel suffices
    have hplen_le : p0.length ≤ st'.prev.length := by
      have hsubp : p0 ⊆ keysOf st'.prev := by
        intro x hx
        obtain ⟨kx, hkx, -⟩ := hpbound x hx
        rw [hb'.pk_eq]
        exact lookupA_mem_keys _ _ _ hkx
      have hle := (hpnd.subperm hsubp).length_le
      simpa [keysOf] using hle
    have hbp2 : buildPath st'.prev (st'.prev.length + 1) t [] = some p0 :=
      buildPath_mono st'.prev (ktn + 1) (st'.prev.length + 1) (by omega) t [] p0 hbp
    rw [hsp, hpt, hbp2]
    refine ⟨by simp, by simp [hreach], ?_⟩
    intro p hp
    have hp0 : p = p0 := by
      injection hp with h1
      injection h1 with h2
      exact h2.symm
    subst hp0
    refine ⟨⟨hhead, hlast, hchain⟩, ?_⟩
    intro q hq
    obtain ⟨hqh, hql, hqc⟩ := hq
    have hqsteps := pathIn_stepsN es q s t hqh hql hqc
    have hqlen : 1 ≤ q.length := by
      cases q with
      | nil => simp at hqh
      | cons a as => simp
    have hmin := hb'.settled_exact t htk htq kt hkt (q.length - 1) hqsteps
    omega

/-- The first iteration of the `shortest_path` loop extracts the start
vertex; when it equals the target the loop stops at once, before reading
any adjacency. -/
theorem spLoop_start_eq_target (g : Adj V) (w : V × V → Int) (s : V) (fuel : Nat) :
    spLoop g w s (fuel + 1) ⟨[(s, 0)], [(s, none)], [s]⟩ =
      some ⟨[(s, 0)], [(s, none)], []⟩ := by
  simp [spLoop, argminD, List.erase_cons_head]

/-- C10: `shortest_path(s, s, weight)` returns the one-vertex path `[s]`
for every graph, every start vertex (known to the graph or not) and every
weight function: the first loop iteration extracts `s`, sees it equals
the target and breaks, and the reconstruction stops at `prev[s] = None`. -/
theorem c10_shortest_path_self (g : Adj V) (s : V) (w : V × V → Int) :
    shortest_path g s s w = some (some [s]) := by
  have h := spLoop_start_eq_target g w s (g.length + (edges g).length + 1)
  unfold shortest_path
  rw [show g.length + (edges g).length + 2 =
    (g.length + (edges g).length + 1) + 1 from rfl, h]
  simp [lookupA, buildPath]

end GraphPy
